import Mathlib

/-!
Verification of the pinyin-toolkit token-transformation pipeline.

The definitions below are shallow embeddings of `pinyin/transformations.py`,
`pinyin/meanings.py` and `pinyin/config.py`.  The token data model
(`pinyin.py`), the media-pack abstraction (`media.py`) and the small
`utils.regexparse` helper are not part of the available sources; definitions
for those carry a doc comment starting with `Modelled from the spec:` and
follow the specification text for the missing module.
-/

namespace PinyinToolkit

/-! ### Python string primitives

The embeddings below use character-list implementations of the Python
string operations they need (`strip`, `replace`, `split`, `startswith`,
`lower`, substring membership), so that every definition evaluates by
kernel reduction. -/

/-- Does the second list start with the first? -/
def headMatches : List Char → List Char → Bool
  | [], _ => true
  | _ :: _, [] => false
  | p :: ps, c :: cs => p == c && headMatches ps cs

/-- Python `pre in s` restricted to `s.startswith(pre)`:
`str.startswith`. -/
def pyStartsWith (s pre : String) : Bool :=
  headMatches pre.toList s.toList

/-- Substring membership over character lists. -/
def containsSubL (pat : List Char) : List Char → Bool
  | [] => headMatches pat []
  | c :: cs => headMatches pat (c :: cs) || containsSubL pat cs

/-- Python `pat in s` (substring membership). -/
def pyContains (s pat : String) : Bool :=
  containsSubL pat.toList s.toList

/-- Python `s.replace(old, new)` for a non-empty `old`: non-overlapping
replacement from the left.  The fuel argument (instantiated with the input
length, which always suffices since each step consumes at least one
character) keeps the recursion structural. -/
def pyReplaceF (pat rep : List Char) : Nat → List Char → List Char
  | _, [] => []
  | 0, cs => cs
  | fuel + 1, c :: cs =>
      if pat ≠ [] && headMatches pat (c :: cs) then
        rep ++ pyReplaceF pat rep fuel ((c :: cs).drop pat.length)
      else
        c :: pyReplaceF pat rep fuel cs

/-- Python `s.replace(old, new)` for a non-empty `old`. -/
def pyReplace (s pat rep : String) : String :=
  String.mk (pyReplaceF pat.toList rep.toList s.toList.length s.toList)

/-- Python `s.split(sep)` for a one-character separator. -/
def pySplitCharL (sep : Char) : List Char → List (List Char)
  | [] => [[]]
  | c :: cs =>
      match pySplitCharL sep cs with
      | [] => [[]]
      | g :: gs => if c == sep then [] :: g :: gs else (c :: g) :: gs

/-- Python `s.split(sep)` for a one-character separator. -/
def pySplitChar (sep : Char) (s : String) : List String :=
  (pySplitCharL sep s.toList).map String.mk

/-- Python `s.strip()`: remove leading and trailing whitespace. -/
def pyTrim (s : String) : String :=
  String.mk
    (((s.toList.dropWhile Char.isWhitespace).reverse.dropWhile
      Char.isWhitespace).reverse)

/-- ASCII lower-casing of one character (Python `str.lower` restricted to
the ASCII range, which is all the filename matching needs). -/
def pyLowerChar (c : Char) : Char :=
  if 'A' ≤ c && c ≤ 'Z' then Char.ofNat (c.toNat + 32) else c

/-- ASCII `str.lower`. -/
def pyLower (s : String) : String :=
  String.mk (s.toList.map pyLowerChar)

/-- Modelled from the spec: the leaf token kinds of the token model
(`pinyin.py` is not among the sources).  A `Pinyin` carries its base spelling
and a tone digit in 1..5 (5 = neutral); a `TonedCharacter` carries one Chinese
character and a tone digit; `Text` is an opaque literal fragment. -/
inductive Token where
  | text (s : String)
  | pinyin (word : String) (tone : Nat)
  | tonedCharacter (char : String) (tone : Nat)
deriving Repr, DecidableEq

/-- Modelled from the spec: the data-model invariant that tones of toned
leaves lie in `[1, 5]`; `Text` leaves carry no tone. -/
def Token.toneInv : Token → Prop
  | .text _ => True
  | .pinyin _ t => 1 ≤ t ∧ t ≤ 5
  | .tonedCharacter _ t => 1 ≤ t ∧ t ≤ 5

instance : DecidablePred Token.toneInv := by
  intro t
  cases t <;> simp only [Token.toneInv] <;> infer_instance

/-- Modelled from the spec: `flatten` renders a token to its literal textual
concatenation; a `Pinyin` renders in numeric format (spelling followed by the
tone digit), as exercised by the repository's own test oracles. -/
def Token.flattenTok : Token → String
  | .text s => s
  | .pinyin w t => w ++ toString t
  | .tonedCharacter c _ => c

/-- Modelled from the spec: a `Word` is an ordered grouping of leaf tokens;
visitors recurse into its children and rebuild it. -/
abbrev Word := List Token

/-- Modelled from the spec: flattening a word concatenates its leaves. -/
def flattenWord (w : Word) : String :=
  String.join (w.map Token.flattenTok)

/-- Modelled from the spec: flattening a list of words concatenates them. -/
def flattenWords (ws : List Word) : String :=
  String.join (ws.map flattenWord)

/-- The tone of a toned leaf; `Text` leaves carry none. -/
def Token.toneOf : Token → Option Nat
  | .text _ => none
  | .pinyin _ t => some t
  | .tonedCharacter _ t => some t

/-- Modelled from the spec: the erhua predicate — true for a `Pinyin` whose
spelling, ignoring tone, is the literal `r`, and for a `TonedCharacter` that
is one of the two er characters. -/
def Token.iser : Token → Bool
  | .text _ => false
  | .pinyin w _ => w == "r"
  | .tonedCharacter c _ => c == "儿" || c == "兒"

/-- Modelled from the spec: the `Pinyin` constructor parses a numeric-format
syllable such as `"ge4"` into a base spelling and a tone digit; a spelling
without a trailing digit is taken as neutral tone (5). -/
def parsePinyin (s : String) : Token :=
  match s.toList.getLast? with
  | some c =>
      if c.isDigit then
        Token.pinyin (String.mk s.toList.dropLast) (c.toNat - Char.toNat '0')
      else
        Token.pinyin s 5
  | none => Token.pinyin s 5

/-! ## TrimErhuaVisitor (`transformations.py` lines 79-96) -/

/-- The per-leaf action of `TrimErhuaVisitor`: er leaves are dropped, all
other leaves pass through unchanged. -/
def trimErhuaVisit (t : Token) : List Token :=
  match t with
  | .text s => [.text s]
  | .pinyin w tn => if (Token.pinyin w tn).iser then [] else [.pinyin w tn]
  | .tonedCharacter c tn =>
      if (Token.tonedCharacter c tn).iser then [] else [.tonedCharacter c tn]

/-- `trimerhua`: concatmap of the `TrimErhuaVisitor` over each word. -/
def trimerhua (words : List Word) : List Word :=
  words.map (fun w => (w.map trimErhuaVisit).flatten)

/-! ## ColorizerVisitor (`transformations.py` lines 108-127) -/

/-- The open tag emitted by `ColorizerVisitor.colorize` for a given color. -/
def colorOpenTag (color : String) : Token :=
  Token.text ("<span style=\"color:" ++ color ++ "\">")

/-- The close tag emitted by `ColorizerVisitor.colorize`. -/
def colorCloseTag : Token :=
  Token.text "</span>"

/-- The per-leaf action of `ColorizerVisitor`: a toned leaf is wrapped in the
markup carrying `colorlist[tone - 1]`; a `Text` leaf passes through.  The
list access is modelled with an optional lookup so that an out-of-bounds
index (a Python `IndexError`) shows up as `none`. -/
def colorizeToken (colorlist : List String) (t : Token) : Option (List Token) :=
  match t with
  | .text s => some [.text s]
  | .pinyin w tn =>
      (colorlist.get? (tn - 1)).map
        (fun c => [colorOpenTag c, Token.pinyin w tn, colorCloseTag])
  | .tonedCharacter ch tn =>
      (colorlist.get? (tn - 1)).map
        (fun c => [colorOpenTag c, Token.tonedCharacter ch tn, colorCloseTag])

/-- Apply a fallible function to every element, failing if any application
fails (the explicit form of `mapM` over `Option`, mirroring a Python loop
in which an exception aborts the whole traversal). -/
def optionMapList (f : α → Option β) : List α → Option (List β)
  | [] => some []
  | a :: as =>
      match f a with
      | none => none
      | some b =>
          match optionMapList f as with
          | none => none
          | some bs => some (b :: bs)

/-- `colorize`: concatmap of the `ColorizerVisitor` over each word. -/
def colorize (colorlist : List String) (words : List Word) : Option (List Word) :=
  optionMapList
    (fun w => (optionMapList (colorizeToken colorlist) w).map List.flatten)
    words

/-- The replacement shape the specification describes for the colorizer:
open tag carrying `colorlist[tone - 1]`, the original token, close tag, with
`Text` leaves passed through.  Stated with a defaulted lookup, which agrees
with the true lookup whenever the index is in bounds. -/
def colorizeExpected (colorlist : List String) : Token → List Token
  | .text s => [.text s]
  | .pinyin w tn =>
      [colorOpenTag (colorlist.getD (tn - 1) ""), .pinyin w tn, colorCloseTag]
  | .tonedCharacter c tn =>
      [colorOpenTag (colorlist.getD (tn - 1) ""), .tonedCharacter c tn,
        colorCloseTag]

/-! ## ToneSandhiVisitor (`transformations.py` lines 12-75) -/

/-- The disjunction of the four contextual predicates tested by
`ToneSandhiVisitor.visitToned` (`transformations.py` lines 53-58). -/
def shouldusethirdtone (monobefore ismono islastinword monoafter : Bool) : Bool :=
  (ismono && monoafter) ||
  (!ismono && !islastinword && monobefore) ||
  (!ismono && monoafter) ||
  (!ismono && !islastinword && !monoafter)

/-- `ToneSandhiVisitor.visitToned`'s inner `do` function: a leaf whose tone is
not 3 is returned unchanged; a third-tone leaf is rebuilt with tone 2 exactly
when one of the four context predicates fires, else returned unchanged.
The `rebuild` functions of `visitPinyin`/`visitTonedCharacter` keep the
spelling/character and replace the tone. -/
def visitToned (monobefore ismono islastinword monoafter : Bool) :
    Token → Token
  | .text s => .text s
  | .pinyin w tn =>
      if tn ≠ 3 then .pinyin w tn
      else if shouldusethirdtone monobefore ismono islastinword monoafter then
        .pinyin w 2
      else .pinyin w tn
  | .tonedCharacter c tn =>
      if tn ≠ 3 then .tonedCharacter c tn
      else if shouldusethirdtone monobefore ismono islastinword monoafter then
        .tonedCharacter c 2
      else .tonedCharacter c tn

/-- Token trees as seen by the tone sandhi entry point: a leaf, a `Word`
wrapping one token (`word.token` in `visitWord`), or a `TokenList`. -/
inductive SToken where
  | leaf (t : Token)
  | word (inner : SToken)
  | tlist (ts : List SToken)
deriving Repr

/-- The shape of the value `token.accept(ToneSandhiVisitor())` returns.
`visitPinyin`/`visitTonedCharacter` return a pair `(True, do)`
(`transformations.py` line 65); `visitText`, `visitWord` and
`visitTokenList` each return a single bare function
(lines 37, 68 and 75), not a pair. -/
inductive SandhiAccept where
  | pair (ismono : Bool) (doFn : Bool → Bool → Bool → Bool → Token)
  | bareFn

/-- Dispatch of `accept` over the `ToneSandhiVisitor`. -/
def sandhiAccept : SToken → SandhiAccept
  | .leaf (.pinyin w tn) =>
      .pair true (fun mb im lw ma => visitToned mb im lw ma (.pinyin w tn))
  | .leaf (.tonedCharacter c tn) =>
      .pair true (fun mb im lw ma => visitToned mb im lw ma (.tonedCharacter c tn))
  | .leaf (.text _) => .bareFn
  | .word _ => .bareFn
  | .tlist _ => .bareFn

/-- The `tonesandhi` wrapper (`transformations.py` lines 12-14): it unpacks
the accepted value as a pair `ismono, doer` and calls
`doer(False, ismono, True, False)`.  When `accept` returns a bare function —
as it does for `Text`, `Word` and `TokenList` tokens — the unpacking raises a
Python `TypeError`, modelled as `Except.error`. -/
def tonesandhi (t : SToken) : Except String SToken :=
  match sandhiAccept t with
  | .pair ismono doer => .ok (.leaf (doer false ismono true false))
  | .bareFn => .error "TypeError: cannot unpack non-sequence"

/-! ## Audio resolution (`transformations.py` lines 134-207) -/

/-- Modelled from the spec: a media pack (`media.py` is not among the
sources) is a display name plus a mapping from filenames to stored media,
queried case-insensitively. -/
structure MediaPack where
  name : String
  files : List (String × String)
deriving Repr, DecidableEq

/-- Modelled from the spec: `mediafor(basename, extensions)` returns a
case-insensitively matched filename, trying the extensions in priority order
(the first extension in the list wins). -/
def MediaPack.mediafor (pack : MediaPack) (base : String)
    (exts : List String) : Option String :=
  exts.findSome? fun ext =>
    (pack.files.find? fun kv => pyLower kv.1 == pyLower (base ++ ext)).map
      (fun kv => kv.2)

/-- Python's `u"u:" in pinyin.word` test. -/
def containsUColon (w : String) : Bool :=
  pyContains w "u:"

/-- The candidate basename list computed by
`PinyinAudioReadingsVisitor.visitPinyin` (`transformations.py` lines
183-190): the numeric format first; for neutral tone the bare spelling and
the tone-4 spelling; otherwise (`elif`) the `u:`→`v` rewrite when the
spelling contains the digraph. -/
def possiblebases (w : String) (tone : Nat) : List String :=
  [w ++ toString tone] ++
    (if tone == 5 then [w, w ++ "4"]
     else if containsUColon w then [pyReplace w "u:" "v" ++ toString tone]
     else [])

/-- The media search of `visitPinyin` (lines 193-196): the first candidate
basename for which the pack reports a match wins. -/
def findMedia (pack : MediaPack) (exts : List String)
    (bases : List String) : Option String :=
  bases.findSome? fun base => pack.mediafor base exts

/-- One step of the `PinyinAudioReadingsVisitor` state: `Text` and
`TonedCharacter` leaves contribute nothing; a `Pinyin` leaf appends its
resolved media or increments the missing count (lines 179-207). -/
def audioVisitLeaf (pack : MediaPack) (exts : List String)
    (acc : List String × Nat) (t : Token) : List String × Nat :=
  match t with
  | .text _ => acc
  | .tonedCharacter _ _ => acc
  | .pinyin w tn =>
      match findMedia pack exts (possiblebases w tn) with
      | some m => (acc.1 ++ [m], acc.2)
      | none => (acc.1, acc.2 + 1)

/-- `audioreadingforpack` (lines 166-169): run the visitor over the
erhua-trimmed words and return its output list and missing count. -/
def audioreadingforpack (pack : MediaPack) (exts : List String)
    (words : List Word) : List String × Nat :=
  ((trimerhua words).flatten).foldl (audioVisitLeaf pack exts) ([], 0)

/-- The pack-selection loop of `PinyinAudioReadings.audioreading` (lines
144-156), carried out over the remaining packs with the current candidate
list and best missing count. -/
def packLoop (exts : List String) (words : List Word) :
    List MediaPack → List (MediaPack × List String) → Nat →
      List (MediaPack × List String) × Nat
  | [], best, bestcount => (best, bestcount)
  | p :: rest, best, bestcount =>
      if (audioreadingforpack p exts (trimerhua words)).2 == bestcount then
        packLoop exts words rest
          (best ++ [(p, (audioreadingforpack p exts (trimerhua words)).1)])
          bestcount
      else if (audioreadingforpack p exts (trimerhua words)).2 < bestcount then
        packLoop exts words rest
          [(p, (audioreadingforpack p exts (trimerhua words)).1)]
          (audioreadingforpack p exts (trimerhua words)).2
      else
        packLoop exts words rest best bestcount

/-- The result triple of `audioreading`. -/
structure AudioResult where
  pack : Option MediaPack
  output : List String
  incomplete : Bool
deriving Repr, DecidableEq

/-- `random.choice` over a list, modelled by an arbitrary index reduced
modulo the list length (so a uniformly distributed index gives the uniform
choice of the Python code); `none` on the empty list. -/
def chooseFrom (choose : Nat) (l : List (MediaPack × List String)) :
    Option (MediaPack × List String) :=
  match l with
  | [] => none
  | b :: bs =>
      some ((b :: bs).get ⟨choose % (b :: bs).length,
        Nat.mod_lt _ (Nat.succ_pos _)⟩)

/-- `PinyinAudioReadings.audioreading` (lines 139-163): the candidate list
starts empty with best missing count `len(tokens) + 1`; if any candidates
survive, one is chosen at random and returned with its output and the
incompleteness flag, else the result is no pack, no output, incomplete. -/
def audioreading (packs : List MediaPack) (exts : List String)
    (choose : Nat) (words : List Word) : AudioResult :=
  match chooseFrom choose (packLoop exts words packs [] (words.length + 1)).1 with
  | none => ⟨none, [], true⟩
  | some chosen =>
      ⟨some chosen.1, chosen.2,
        (packLoop exts words packs [] (words.length + 1)).2 != 0⟩

/-- The per-pack missing count over a given token sequence (the second
component of `audioreadingforpack` as invoked from `audioreading`, where the
words are erhua-trimmed once more before the visitor runs). -/
def missingCount (exts : List String) (words : List Word)
    (pack : MediaPack) : Nat :=
  (audioreadingforpack pack exts (trimerhua words)).2

/-- The running minimum the selection loop maintains: the initial best count
folded with each pack's missing count. -/
def minMissing (exts : List String) (words : List Word) (count : Nat)
    (packs : List MediaPack) : Nat :=
  packs.foldl (fun a p => min a (missingCount exts words p)) count

/-- The packs attaining the running minimum, each paired with its output --
the pool `random.choice` draws from. -/
def candidatesFor (exts : List String) (words : List Word)
    (packs : List MediaPack) (count : Nat) :
    List (MediaPack × List String) :=
  (packs.filter
    (fun p => missingCount exts words p == minMissing exts words count packs)).map
    (fun p => (p, (audioreadingforpack p exts (trimerhua words)).1))

/-- The media resolved for one leaf: `Pinyin` leaves search their candidate
basenames, other leaves are not voiced. -/
def resolveLeaf (pack : MediaPack) (exts : List String) (t : Token) :
    Option String :=
  match t with
  | .pinyin w tn => findMedia pack exts (possiblebases w tn)
  | _ => none

/-- Whether a leaf counts towards the pack's missing total: a `Pinyin` leaf
with no resolvable media. -/
def leafMissing (pack : MediaPack) (exts : List String) (t : Token) : Bool :=
  match t with
  | .pinyin w tn => (findMedia pack exts (possiblebases w tn)).isNone
  | _ => false

/-- Is this leaf a `Pinyin` syllable? -/
def isPinyinTok : Token → Bool
  | .pinyin _ _ => true
  | _ => false

/-! ## MeaningFormatter (`meanings.py`) -/

/-- The character class `[^\|\[\s]` of `embeddedchineseregex`
(`meanings.py` line 10): anything other than a pipe, an opening bracket or
whitespace. -/
def isHanziChar (c : Char) : Bool :=
  c ≠ '|' && c ≠ '[' && !c.isWhitespace

/-- The four capture groups of one `embeddedchineseregex` match:
`g1|g2` from the first alternative, `g3` from the second, and the optional
bracketed pinyin `g4`. -/
structure EmbeddedMatch where
  g1 : Option String
  g2 : Option String
  g3 : Option String
  g4 : Option String
deriving Repr, DecidableEq

/-- Matching `embeddedchineseregex` at the head of a character list.  The
first alternative `([^\|\[\s]*)\|([^\|\[\s]*)` takes the maximal run of
allowed characters and requires a literal `|`; otherwise the single group
`([^\|\[\s]*)` matches.  The optional suffix `(?:\s*\[([^\]]*)\])?` consumes
whitespace, a bracketed run and the closing bracket, and is skipped entirely
when no closing bracket follows.  Returns the groups and the unconsumed
rest. -/
def matchEmbedded (cs : List Char) : EmbeddedMatch × List Char :=
  let s1 := cs.span isHanziChar
  let afterAlt : EmbeddedMatch × List Char :=
    match s1.2 with
    | '|' :: rest2 =>
        let s2 := rest2.span isHanziChar
        (⟨some (String.mk s1.1), some (String.mk s2.1), none, none⟩, s2.2)
    | _ => (⟨none, none, some (String.mk s1.1), none⟩, s1.2)
  let sw := afterAlt.2.span (fun c => c.isWhitespace)
  match sw.2 with
  | '[' :: restb =>
      let sb := restb.span (fun c => c ≠ ']')
      match sb.2 with
      | ']' :: restd =>
          ({ afterAlt.1 with g4 := some (String.mk sb.1) }, restd)
      | _ => (afterAlt.1, afterAlt.2)
  | _ => (afterAlt.1, afterAlt.2)

/-- One item produced by scanning a clause: a literal span or a match. -/
inductive ScanItem where
  | lit (s : List Char)
  | found (m : EmbeddedMatch)
deriving Repr, DecidableEq

/-- Modelled from the spec: `utils.regexparse` (the `utils` module is not
among the sources) interleaves pattern matches with the unmatched spans,
which are emitted as literal text; a position where the pattern only matches
emptily contributes its character to the current literal span.  Structured
with explicit fuel so that the definition is structurally recursive: every
step consumes at least one character, so fuel equal to the input length
suffices. -/
def regexScanF : Nat → List Char → List ScanItem
  | _, [] => []
  | 0, _ => []
  | fuel + 1, c :: cs' =>
      let r := matchEmbedded (c :: cs')
      if r.2.length < cs'.length + 1 then
        ScanItem.found r.1 :: regexScanF fuel r.2
      else
        match regexScanF fuel cs' with
        | ScanItem.lit l :: out => ScanItem.lit (c :: l) :: out
        | out => ScanItem.lit [c] :: out

/-- Scan a whole clause. -/
def regexScan (cs : List Char) : List ScanItem :=
  regexScanF cs.length cs

/-- `MeaningFormatter.formatmatch` (`meanings.py` lines 48-67): choose the
character from the lone group or from the simplified/traditional slot, then
emit it, optionally followed by the literal `" - "` separator and the
bracketed pronunciation as a `Pinyin` token. -/
def formatmatch (simplifiedcharindex : Nat) (prefersimptrad : String)
    (m : EmbeddedMatch) : List Token :=
  let character :=
    match m.g3 with
    | some c => c
    | none =>
        if prefersimptrad == "simp" then
          (if simplifiedcharindex == 1 then m.g2 else m.g1).getD ""
        else
          (if simplifiedcharindex == 1 then m.g1 else m.g2).getD ""
  match m.g4 with
  | some py => [Token.text character, Token.text " - ", parsePinyin py]
  | none => [Token.text character]

/-- Python's `str.lstrip(chars)`: drop leading characters belonging to the
set. -/
def lstripChars (chars : String) (s : String) : String :=
  String.mk (s.toList.dropWhile (fun c => chars.toList.contains c))

/-- Python's `str.rstrip(chars)`. -/
def rstripChars (chars : String) (s : String) : String :=
  String.mk ((s.toList.reverse.dropWhile
    (fun c => chars.toList.contains c)).reverse)

/-- The token list built for one clause (`meanings.py` lines 32-38):
matches contribute their formatted tokens, unmatched spans are appended
as-is. -/
def clauseTokens (simplifiedcharindex : Nat) (prefersimptrad : String)
    (clause : String) : List Token :=
  (regexScan clause.toList).flatMap fun item =>
    match item with
    | .lit l => [Token.text (String.mk l)]
    | .found m => formatmatch simplifiedcharindex prefersimptrad m

/-- Processing of one `/`-delimited clause (`meanings.py` lines 18-44):
normalize `CL:` to `MW:`, detect measure-word clauses and reformat their
commas, and scan the remainder. -/
def parseClause (simplifiedcharindex : Nat) (prefersimptrad : String)
    (acc : List (List Token) × List (List Token)) (d : String) :
    List (List Token) × List (List Token) :=
  let d1 := pyReplace (pyTrim d) "CL:" "MW:"
  if pyStartsWith d1 "MW:" then
    let d2 := String.intercalate ", "
      (pySplitChar ',' (pyTrim (lstripChars "MW:" d1)))
    (acc.1, acc.2 ++ [clauseTokens simplifiedcharindex prefersimptrad d2])
  else
    (acc.1 ++ [clauseTokens simplifiedcharindex prefersimptrad d1], acc.2)

/-- `MeaningFormatter.parsedefinition` (`meanings.py` lines 16-46): strip the
surrounding slashes and whitespace, split into clauses and sort each clause's
token list into the meanings or the measure-word pile. -/
def parsedefinition (simplifiedcharindex : Nat) (prefersimptrad : String)
    (raw : String) : List (List Token) × List (List Token) :=
  (pySplitChar '/' (rstripChars "/" (lstripChars "/" (pyTrim raw)))).foldl
    (parseClause simplifiedcharindex prefersimptrad) ([], [])

/-! ## Config meaning formatting (`config.py` lines 72-85 and 144-163) -/

/-- The `meaningnumberingstringss` table (`config.py` lines 72-80); the
`"none"` scheme maps to Python `None`, modelled as `none`. -/
def meaningnumberingstringss (key : String) : Option (List String) :=
  if key == "circledChinese" then
    some ["㊀", "㊁", "㊂", "㊃", "㊄", "㊅", "㊆", "㊇", "㊈", "㊉",
          "⑪", "⑫", "⑬", "⑭", "⑮", "⑯", "⑰", "⑱", "⑲", "⑳"]
  else if key == "circledArabic" then
    some ["①", "②", "③", "④", "⑤", "⑥", "⑦", "⑧", "⑨", "⑩",
          "⑪", "⑫", "⑬", "⑭", "⑮", "⑯", "⑰", "⑱", "⑲", "⑳"]
  else if key == "arabicParens" then some []
  else none

/-- The `meaningseperatorstrings` table (`config.py` lines 82-85). -/
def meaningseperatorstrings (key : String) : Option String :=
  if key == "lines" then some "<br />"
  else if key == "commas" then some ", "
  else none

/-- The derived `meaningseperatorstring` property (`config.py` line 147):
`meaningseperatorstrings.get(sep) or custom`, with Python truthiness — an
absent key or an empty preset falls back to the custom separator. -/
def meaningseperatorstring (sep custom : String) : String :=
  match meaningseperatorstrings sep with
  | some s => if s == "" then custom else s
  | none => custom

/-- The inner `meaningnumber` function of `Config.formatmeanings`
(`config.py` lines 152-157). -/
def meaningnumber (strs : List String) (n : Nat) : String :=
  match strs.get? n with
  | some s => s
  | none => "(" ++ toString (n + 1) ++ ")"

/-- `Config.formatmeanings` (`config.py` lines 149-163) with the numbering
scheme and separator string already resolved from the settings. -/
def formatmeanings (numbering : Option (List String)) (sepstr : String)
    (meanings : List String) : String :=
  let ms :=
    match numbering with
    | some strs =>
        if meanings.length > 1 then
          meanings.enum.map (fun p => meaningnumber strs p.1 ++ " " ++ p.2)
        else meanings
    | none => meanings
  String.intercalate sepstr ms

/-- `Config.formatmeanings` as reached from the configuration keys
`meaningnumbering`, `meaningseperator` and `custommeaningseperator`. -/
def formatmeaningsConfig (numberingkey sep custom : String)
    (meanings : List String) : String :=
  formatmeanings (meaningnumberingstringss numberingkey)
    (meaningseperatorstring sep custom) meanings

/-! ## Config construction (`config.py` lines 93-104)

`Config.__init__` copies the defaults and then the user settings into a
fresh dictionary, deep-copying every value.  To make the aliasing content of
that statement expressible, Python's object graph is modelled with an
explicit heap: compound values (lists and dictionaries) live in numbered
cells, immutable scalars are immediate.  A well-formed heap is one in which
every cell references only strictly smaller addresses, which is maintained
by bottom-up allocation and rules out reference cycles. -/

/-- A Python value: an immutable scalar or a reference to a heap cell. -/
inductive PyVal where
  | prim (s : String)
  | ref (a : Nat)
deriving Repr, DecidableEq

/-- A heap cell: a mutable list or dictionary. -/
inductive Cell where
  | listC (items : List PyVal)
  | dictC (entries : List (String × PyVal))
deriving Repr, DecidableEq

/-- The addresses a cell refers to. -/
def Cell.refs : Cell → List Nat
  | .listC vs => vs.filterMap (fun v => match v with | .ref a => some a | _ => none)
  | .dictC es => es.filterMap (fun e => match e.2 with | .ref a => some a | _ => none)

/-- The heap: cell `a` is `h.get? a`; allocation appends. -/
abbrev Heap := List Cell

/-- Well-formedness: every cell references only strictly smaller
addresses. -/
abbrev HeapWf (h : Heap) : Prop :=
  ∀ (i : Nat) (c : Cell), h[i]? = some c → ∀ a ∈ c.refs, a < i

/-- A value bounded by `B`: a scalar, or a reference below `B`. -/
def ValBelow (B : Nat) : PyVal → Prop
  | .prim _ => True
  | .ref a => a < B

instance : ∀ B v, Decidable (ValBelow B v) := by
  intro B v
  cases v <;> simp only [ValBelow] <;> infer_instance

/-- A value in the fresh region: a scalar, or a reference at or above
`lo`. -/
def ValAbove (lo : Nat) : PyVal → Prop
  | .prim _ => True
  | .ref a => lo ≤ a

/-- A value whose reference, if any, lies below the given fuel bound. -/
def ValFuel (f : Nat) : PyVal → Prop
  | .prim _ => True
  | .ref a => a < f

/-- Every cell at address `≥ lo` references only addresses `≥ lo`: the fresh
region is closed, so nothing reachable from it leads back into the old
region. -/
abbrev RegionClosed (h : Heap) (lo : Nat) : Prop :=
  ∀ (i : Nat) (c : Cell), h[i]? = some c → lo ≤ i → ∀ a ∈ c.refs, lo ≤ a

/-- The denotation trees values are read out to. -/
inductive PyTree where
  | prim (s : String)
  | list (items : List PyTree)
  | dict (entries : List (String × PyTree))

/-- Fuel-indexed readout of a value's denotation tree.  In a well-formed
heap a cell's children live at strictly smaller addresses, so fuel one above
the address always suffices. -/
def readoutV : Nat → Heap → PyVal → Option PyTree
  | _, _, .prim s => some (.prim s)
  | 0, _, .ref _ => none
  | fuel + 1, h, .ref a =>
      match h[a]? with
      | none => none
      | some (.listC vs) =>
          (optionMapList (readoutV fuel h) vs).map PyTree.list
      | some (.dictC es) =>
          (optionMapList (fun e => (readoutV fuel h e.2).map
            (fun t => (e.1, t))) es).map PyTree.dict

mutual

/-- `copy.deepcopy` of one value: scalars are returned as-is, a referenced
cell is copied bottom-up into freshly allocated cells.  Fuel bounds the
recursion depth; a well-formed heap always has enough fuel available. -/
def deepcopyV : Nat → Heap → PyVal → Option (Heap × PyVal)
  | _, h, .prim s => some (h, .prim s)
  | 0, _, .ref _ => none
  | fuel + 1, h, .ref a =>
      match h[a]? with
      | none => none
      | some (.listC vs) =>
          match deepcopyL fuel h vs with
          | none => none
          | some (h2, vs2) => some (h2 ++ [.listC vs2], .ref h2.length)
      | some (.dictC es) =>
          match deepcopyE fuel h es with
          | none => none
          | some (h2, es2) => some (h2 ++ [.dictC es2], .ref h2.length)
termination_by fuel _ _ => (fuel, 0)

/-- Deep copy of a list of values, threading the heap. -/
def deepcopyL : Nat → Heap → List PyVal → Option (Heap × List PyVal)
  | _, h, [] => some (h, [])
  | fuel, h, v :: vs =>
      match deepcopyV fuel h v with
      | none => none
      | some (h2, v2) =>
          match deepcopyL fuel h2 vs with
          | none => none
          | some (h3, vs2) => some (h3, v2 :: vs2)
termination_by fuel _ vs => (fuel, vs.length + 1)

/-- Deep copy of dictionary entries, threading the heap. -/
def deepcopyE : Nat → Heap → List (String × PyVal) →
    Option (Heap × List (String × PyVal))
  | _, h, [] => some (h, [])
  | fuel, h, e :: es =>
      match deepcopyV fuel h e.2 with
      | none => none
      | some (h2, v2) =>
          match deepcopyE fuel h2 es with
          | none => none
          | some (h3, es2) => some (h3, (e.1, v2) :: es2)
termination_by fuel _ es => (fuel, es.length + 1)

end

/-- Python dictionary assignment `d[k] = v` on an association list with
unique keys: replace the binding if the key is present, else append. -/
def upsert (es : List (String × PyVal)) (k : String) (v : PyVal) :
    List (String × PyVal) :=
  if es.any (fun e => e.1 == k) then
    es.map (fun e => if e.1 == k then (k, v) else e)
  else
    es ++ [(k, v)]

/-- The settings-construction loop of `Config.__init__` (`config.py` lines
98-101): for each key/value pair in order, store a deep copy of the value
under the key. -/
def copySettings (fuel : Nat) : Heap → List (String × PyVal) →
    List (String × PyVal) → Option (Heap × List (String × PyVal))
  | h, acc, [] => some (h, acc)
  | h, acc, (k, v) :: rest =>
      match deepcopyV fuel h v with
      | none => none
      | some (h2, v2) => copySettings fuel h2 (upsert acc k v2) rest

/-- `Config.__init__(usersettings)`: read the entries of the defaults
dictionary (address `d`) and of the user dictionary (address `u`), copy them
in that order into a fresh settings dictionary, and allocate it.  Returns
the new heap and the address of the settings dictionary. -/
def configInit (fuel : Nat) (h : Heap) (d u : Nat) : Option (Heap × Nat) :=
  match h[d]?, h[u]? with
  | some (.dictC de), some (.dictC ue) =>
      match copySettings fuel h [] (de ++ ue) with
      | none => none
      | some (h2, entries) => some (h2 ++ [.dictC entries], h2.length)
  | _, _ => none

/-- Heap mutation: overwrite the cell at address `r`. -/
def heapSet (h : Heap) (r : Nat) (c : Cell) : Heap :=
  h.set r c

/-- Reachability in a heap, starting from an address. -/
inductive Reach (h : Heap) (s : Nat) : Nat → Prop
  | refl : Reach h s s
  | step {b : Nat} {c : Cell} {a : Nat} :
      Reach h s b → h[b]? = some c → a ∈ c.refs → Reach h s a

/-- The last binding of a key in a raw entry list (the value a Python dict
built from those entries in order associates with the key). -/
def lastVal (k : String) : List (String × PyVal) → Option PyVal
  | [] => none
  | e :: es =>
      match lastVal k es with
      | some v => some v
      | none => if e.1 == k then some e.2 else none

/-- Lookup in an association list. -/
def assocFind (k : String) : List (String × PyVal) → Option PyVal
  | [] => none
  | e :: es => if e.1 == k then some e.2 else assocFind k es

/-- The invariants a successful `deepcopyV` establishes: the heap only
grows; well-formedness is preserved; the copied value is fresh (at or above
the old allocation frontier) and valid in the new heap; any closed region at
or below the old frontier stays closed; and in a well-formed heap the copy
reads out exactly as the original, at every fuel. -/
def DeepcopyVOk (f : Nat) : Prop :=
  ∀ (h : Heap) (v : PyVal) (h2 : Heap) (v2 : PyVal),
    deepcopyV f h v = some (h2, v2) →
    (∃ t, h2 = h ++ t) ∧
    (HeapWf h → HeapWf h2) ∧
    ValAbove h.length v2 ∧
    ValBelow h2.length v2 ∧
    (∀ lo, lo ≤ h.length → RegionClosed h lo → RegionClosed h2 lo) ∧
    (HeapWf h → ∀ g, readoutV g h2 v2 = readoutV g h v)

/-- The corresponding invariants for `deepcopyL`. -/
def DeepcopyLOk (f : Nat) : Prop :=
  ∀ (h : Heap) (vs : List PyVal) (h2 : Heap) (vs2 : List PyVal),
    deepcopyL f h vs = some (h2, vs2) →
    (∃ t, h2 = h ++ t) ∧
    (HeapWf h → HeapWf h2) ∧
    (∀ v2 ∈ vs2, ValAbove h.length v2) ∧
    (∀ v2 ∈ vs2, ValBelow h2.length v2) ∧
    (∀ lo, lo ≤ h.length → RegionClosed h lo → RegionClosed h2 lo) ∧
    (HeapWf h → (∀ v ∈ vs, ValBelow h.length v) →
      ∀ g, optionMapList (readoutV g h2) vs2 =
        optionMapList (readoutV g h) vs)

/-- The corresponding invariants for `deepcopyE`. -/
def DeepcopyEOk (f : Nat) : Prop :=
  ∀ (h : Heap) (es : List (String × PyVal)) (h2 : Heap)
    (es2 : List (String × PyVal)),
    deepcopyE f h es = some (h2, es2) →
    (∃ t, h2 = h ++ t) ∧
    (HeapWf h → HeapWf h2) ∧
    (∀ e2 ∈ es2, ValAbove h.length e2.2) ∧
    (∀ e2 ∈ es2, ValBelow h2.length e2.2) ∧
    (∀ lo, lo ≤ h.length → RegionClosed h lo → RegionClosed h2 lo) ∧
    (HeapWf h → (∀ e ∈ es, ValBelow h.length e.2) →
      ∀ g, optionMapList (fun e => (readoutV g h2 e.2).map
          (fun t => (e.1, t))) es2 =
        optionMapList (fun e => (readoutV g h e.2).map
          (fun t => (e.1, t))) es)

/-! ## Helper lemmas -/

theorem trimErhuaVisit_eq (t : Token) :
    trimErhuaVisit t = if t.iser then [] else [t] := by
  cases t <;> simp [trimErhuaVisit, Token.iser]

theorem trim_word_eq (w : Word) :
    (w.map trimErhuaVisit).flatten = w.filter (fun t => !t.iser) := by
  induction w with
  | nil => rfl
  | cons t ts ih =>
      by_cases h : t.iser = true <;>
        simp [trimErhuaVisit_eq, List.filter_cons, h, ih]

theorem colorizeToken_eq (cl : List String) (t : Token)
    (hlen : cl.length = 5) (hinv : t.toneInv) :
    colorizeToken cl t = some (colorizeExpected cl t) := by
  cases t with
  | text s => rfl
  | pinyin w tn =>
      obtain ⟨h1, h5⟩ := hinv
      have hb : tn - 1 < cl.length := by omega
      have hx : cl[tn - 1]? = some cl[tn - 1] := List.getElem?_eq_getElem hb
      simp [colorizeToken, colorizeExpected, List.get?_eq_getElem?, hx]
  | tonedCharacter c tn =>
      obtain ⟨h1, h5⟩ := hinv
      have hb : tn - 1 < cl.length := by omega
      have hx : cl[tn - 1]? = some cl[tn - 1] := List.getElem?_eq_getElem hb
      simp [colorizeToken, colorizeExpected, List.get?_eq_getElem?, hx]

theorem colorize_word_eq (cl : List String) (w : Word)
    (hlen : cl.length = 5) (hinv : ∀ t ∈ w, t.toneInv) :
    optionMapList (colorizeToken cl) w = some (w.map (colorizeExpected cl)) := by
  induction w with
  | nil => rfl
  | cons t ts ih =>
      have ht : t.toneInv := hinv t (by simp)
      have hts : ∀ x ∈ ts, x.toneInv := fun x hx => hinv x (by simp [hx])
      simp [optionMapList, colorizeToken_eq cl t hlen ht, ih hts]

theorem minMissing_le (exts : List String) (words : List Word) :
    ∀ (packs : List MediaPack) (count : Nat),
      minMissing exts words count packs ≤ count := by
  intro packs
  induction packs with
  | nil => intro count; exact Nat.le_refl _
  | cons p rest ih =>
      intro count
      exact le_trans (ih _) (Nat.min_le_left _ _)

theorem minMissing_le_mem (exts : List String) (words : List Word) :
    ∀ (packs : List MediaPack) (count : Nat) (q : MediaPack), q ∈ packs →
      minMissing exts words count packs ≤ missingCount exts words q := by
  intro packs
  induction packs with
  | nil => intro count q hq; simp at hq
  | cons p rest ih =>
      intro count q hq
      rcases List.mem_cons.mp hq with h | h
      · subst h
        exact le_trans (minMissing_le exts words rest _) (Nat.min_le_right _ _)
      · exact ih _ q h

theorem minMissing_id (exts : List String) (words : List Word) :
    ∀ (packs : List MediaPack) (count : Nat),
      (∀ q ∈ packs, count ≤ missingCount exts words q) →
      minMissing exts words count packs = count := by
  intro packs
  induction packs with
  | nil => intro count _; rfl
  | cons p rest ih =>
      intro count h
      have hp : count ≤ missingCount exts words p := h p (by simp)
      have : min count (missingCount exts words p) = count :=
        Nat.min_eq_left hp
      show minMissing exts words (min count (missingCount exts words p)) rest
        = count
      rw [this]
      exact ih count (fun q hq => h q (by simp [hq]))

theorem minMissing_attained (exts : List String) (words : List Word) :
    ∀ (packs : List MediaPack) (count : Nat),
      (∃ p ∈ packs, missingCount exts words p ≤ count) →
      ∃ p ∈ packs,
        missingCount exts words p = minMissing exts words count packs := by
  intro packs
  induction packs with
  | nil => intro count h; simp at h
  | cons p rest ih =>
      intro count h
      by_cases hc : ∃ q ∈ rest,
        missingCount exts words q ≤ min count (missingCount exts words p)
      · obtain ⟨q, hq, heq⟩ := ih (min count (missingCount exts words p)) hc
        exact ⟨q, by simp [hq], heq⟩
      · push_neg at hc
        have hid : minMissing exts words
            (min count (missingCount exts words p)) rest =
            min count (missingCount exts words p) :=
          minMissing_id exts words rest _ (fun q hq => le_of_lt (hc q hq))
        by_cases hple : missingCount exts words p ≤ count
        · refine ⟨p, by simp, ?_⟩
          show missingCount exts words p =
            minMissing exts words (min count (missingCount exts words p)) rest
          rw [hid, Nat.min_eq_right hple]
        · obtain ⟨r, hr, hrle⟩ := h
          rcases List.mem_cons.mp hr with h1 | h1
          · exact absurd (h1 ▸ hrle) hple
          · have := hc r h1
            omega

theorem packLoop_spec (exts : List String) (words : List Word) :
    ∀ (rest : List MediaPack) (best : List (MediaPack × List String))
      (count : Nat),
      packLoop exts words rest best count =
        ((if minMissing exts words count rest = count then best else []) ++
          candidatesFor exts words rest count,
         minMissing exts words count rest) := by
  intro rest
  induction rest with
  | nil =>
      intro best count
      simp [packLoop, minMissing, candidatesFor]
  | cons p rest ih =>
      intro best count
      have hmle : minMissing exts words count (p :: rest) ≤ count :=
        minMissing_le exts words (p :: rest) count
      rcases Nat.lt_trichotomy (missingCount exts words p) count with hlt | heq | hgt
      · -- strictly better: the candidate list is reset
        have hmc : (audioreadingforpack p exts (trimerhua words)).2 =
            missingCount exts words p := rfl
        have hbeq : ((audioreadingforpack p exts (trimerhua words)).2 == count)
            = false := by
          rw [hmc]
          simp
          omega
        rw [packLoop, hbeq]
        simp only [Bool.false_eq_true, if_false]
        rw [if_pos (by rw [hmc]; exact hlt)]
        rw [ih]
        simp only [hmc]
        have hc2 : minMissing exts words count (p :: rest) =
            minMissing exts words (missingCount exts words p) rest := by
          show minMissing exts words
            (min count (missingCount exts words p)) rest = _
          rw [Nat.min_eq_right (le_of_lt hlt)]
        rw [hc2]
        have hc2le : minMissing exts words (missingCount exts words p) rest ≤
            missingCount exts words p :=
          minMissing_le exts words rest _
        rw [Prod.mk.injEq]
        refine ⟨?_, rfl⟩
        have hne : minMissing exts words (missingCount exts words p) rest ≠
            count := by omega
        rw [if_neg hne]
        simp only [candidatesFor]
        rw [hc2]
        by_cases hatt : minMissing exts words (missingCount exts words p) rest =
            missingCount exts words p
        · -- the head pack attains the final minimum
          rw [if_pos hatt]
          have hfil : (missingCount exts words p ==
              minMissing exts words (missingCount exts words p) rest)
              = true := by simpa using hatt.symm
          simp [List.filter_cons, hfil]
        · rw [if_neg hatt]
          have hfil : (missingCount exts words p ==
              minMissing exts words (missingCount exts words p) rest)
              = false := by
            simp
            exact fun hcontra => hatt hcontra.symm
          simp [List.filter_cons, hfil]
      · -- as good as the initial best: appended
        have hbeq : ((audioreadingforpack p exts (trimerhua words)).2 == count)
            = true := by simpa [missingCount] using heq
        rw [packLoop, hbeq]
        simp only [if_true]
        rw [ih]
        have hc2 : minMissing exts words count (p :: rest) =
            minMissing exts words count rest := by
          show minMissing exts words
            (min count (missingCount exts words p)) rest = _
          rw [heq, Nat.min_self]
        have hrle : minMissing exts words count rest ≤ count :=
          minMissing_le exts words rest count
        rw [Prod.mk.injEq]
        refine ⟨?_, hc2.symm⟩
        rw [hc2]
        by_cases hcc : minMissing exts words count rest = count
        · rw [if_pos hcc, if_pos hcc]
          simp only [candidatesFor]
          rw [hc2]
          have hfil : (missingCount exts words p ==
              minMissing exts words count rest) = true := by
            simp [heq, hcc]
          simp [List.filter_cons, hfil]
        · rw [if_neg hcc, if_neg hcc]
          simp only [candidatesFor]
          rw [hc2]
          have hfil : (missingCount exts words p ==
              minMissing exts words count rest) = false := by
            simp [heq]
            omega
          simp [List.filter_cons, hfil]
      · -- strictly worse: skipped
        have hbeq : ((audioreadingforpack p exts (trimerhua words)).2 == count)
            = false := by
          simp [missingCount] at hgt ⊢
          omega
        have hbl : ((audioreadingforpack p exts (trimerhua words)).2 < count)
            = False := by
          simp [missingCount] at hgt ⊢
          omega
        rw [packLoop, hbeq]
        simp only [Bool.false_eq_true, if_false]
        rw [if_neg (by simp [missingCount] at hgt ⊢; omega)]
        rw [ih]
        have hc2 : minMissing exts words count (p :: rest) =
            minMissing exts words count rest := by
          show minMissing exts words
            (min count (missingCount exts words p)) rest = _
          rw [Nat.min_eq_left (le_of_lt hgt)]
        rw [hc2]
        have hrle : minMissing exts words count rest ≤ count :=
          minMissing_le exts words rest count
        rw [Prod.mk.injEq]
        refine ⟨?_, rfl⟩
        simp only [candidatesFor]
        rw [hc2]
        have hfil : (missingCount exts words p ==
            minMissing exts words count rest) = false := by
          simp
          omega
        simp [List.filter_cons, hfil]

theorem trimerhua_idem (words : List Word) :
    trimerhua (trimerhua words) = trimerhua words := by
  simp only [trimerhua, List.map_map]
  refine List.map_congr_left ?_
  intro w _
  simp [Function.comp, trim_word_eq, List.filter_filter, Bool.and_self]

theorem audioVisit_fold (pack : MediaPack) (exts : List String) :
    ∀ (ts : List Token) (acc : List String × Nat),
      ts.foldl (audioVisitLeaf pack exts) acc =
        (acc.1 ++ ts.filterMap (resolveLeaf pack exts),
         acc.2 + (ts.filter (leafMissing pack exts)).length) := by
  intro ts
  induction ts with
  | nil => intro acc; simp
  | cons t rest ih =>
      intro acc
      cases t with
      | text s =>
          simpa [audioVisitLeaf, resolveLeaf, leafMissing,
            List.filterMap_cons, List.filter_cons] using ih acc
      | tonedCharacter c tn =>
          simpa [audioVisitLeaf, resolveLeaf, leafMissing,
            List.filterMap_cons, List.filter_cons] using ih acc
      | pinyin w tn =>
          cases hf : findMedia pack exts (possiblebases w tn) with
          | some m =>
              simp [audioVisitLeaf, hf, resolveLeaf, leafMissing,
                List.filterMap_cons, List.filter_cons, ih]
          | none =>
              simp [audioVisitLeaf, hf, resolveLeaf, leafMissing,
                List.filterMap_cons, List.filter_cons, ih]
              omega

theorem audioreadingforpack_eq (pack : MediaPack) (exts : List String)
    (words : List Word) :
    audioreadingforpack pack exts (trimerhua words) =
      ((trimerhua words).flatten.filterMap (resolveLeaf pack exts),
       ((trimerhua words).flatten.filter (leafMissing pack exts)).length) := by
  have h := audioVisit_fold pack exts
    ((trimerhua (trimerhua words)).flatten) ([], 0)
  simpa [audioreadingforpack, trimerhua_idem] using h

theorem chooseFrom_of_ne (ch : Nat) {l : List (MediaPack × List String)}
    (h : l ≠ []) : ∃ x, chooseFrom ch l = some x ∧ x ∈ l := by
  cases l with
  | nil => exact absurd rfl h
  | cons b bs =>
      exact ⟨_, rfl, List.get_mem _ _ _⟩

theorem chooseFrom_at (l : List (MediaPack × List String)) (i : Fin l.length) :
    chooseFrom i.1 l = some (l.get i) := by
  cases l with
  | nil => exact absurd i.isLt (by simp)
  | cons b bs =>
      show some ((b :: bs).get ⟨i.1 % (b :: bs).length, _⟩) = some ((b :: bs).get i)
      congr 1
      exact congrArg _ (Fin.ext (Nat.mod_eq_of_lt i.isLt))

theorem chooseFrom_mem {ch : Nat} {l : List (MediaPack × List String)}
    {x : MediaPack × List String} (h : chooseFrom ch l = some x) : x ∈ l := by
  cases l with
  | nil => simp [chooseFrom] at h
  | cons b bs =>
      have hx : x = (b :: bs).get
          ⟨ch % (b :: bs).length, Nat.mod_lt _ (Nat.succ_pos _)⟩ := by
        have := h.symm
        simpa [chooseFrom] using this
      rw [hx]
      exact List.get_mem _ _ _

theorem mem_candidatesFor {exts : List String} {words : List Word}
    {packs : List MediaPack} {count : Nat} {pr : MediaPack × List String}
    (h : pr ∈ candidatesFor exts words packs count) :
    pr.1 ∈ packs ∧
    missingCount exts words pr.1 = minMissing exts words count packs ∧
    pr.2 = (audioreadingforpack pr.1 exts (trimerhua words)).1 := by
  obtain ⟨q, hq, rfl⟩ := List.mem_map.mp h
  obtain ⟨hqp, hqe⟩ := List.mem_filter.mp hq
  exact ⟨hqp, by simpa using hqe, rfl⟩

theorem mediafor_empty (pack : MediaPack) (hp : pack.files = [])
    (base : String) (exts : List String) :
    pack.mediafor base exts = none := by
  induction exts with
  | nil => rfl
  | cons e es ih =>
      simp only [MediaPack.mediafor, hp] at ih ⊢
      simp [List.findSome?_cons, ih]

theorem findMedia_empty (pack : MediaPack) (hp : pack.files = [])
    (exts : List String) (bases : List String) :
    findMedia pack exts bases = none := by
  induction bases with
  | nil => rfl
  | cons b bs ih =>
      simp [findMedia, List.findSome?_cons, mediafor_empty pack hp]

theorem filter_length_any (q : Token → Bool) (l : List Token) :
    ((l.filter q).length != 0) = l.any q := by
  induction l with
  | nil => rfl
  | cons t ts ih =>
      by_cases h : q t = true
      · simp [List.filter_cons, h, List.any_cons]
      · simp [List.filter_cons, List.any_cons, h, ih]

/-! ## Claim theorems -/

/-- C8: the erhua-trimming transformation deletes exactly the leaves whose
erhua predicate is true and keeps every other leaf unchanged in order; the
word (yi1, ping2, r5) flattens after trimming to `"yi1ping2"` and a word of
the lone syllable r5 flattens to the empty string. -/
theorem claim_C8 :
    (∀ words : List Word,
        trimerhua words = words.map (fun w => w.filter (fun t => !t.iser))) ∧
    flattenWords (trimerhua
      [[.pinyin "yi" 1, .pinyin "ping" 2, .pinyin "r" 5]]) = "yi1ping2" ∧
    flattenWords (trimerhua [[.pinyin "r" 5]]) = "" := by
  refine ⟨fun words => ?_, by decide, by decide⟩
  simp [trimerhua, trim_word_eq]

/-- C9: with a 5-entry color list and tones within the data-model invariant,
the colorizer rewrites every toned leaf to open tag, original token, close
tag with the color `colorlist[tone - 1]`, passes `Text` leaves through, and
the tone-indexed access never leaves the list's bounds (the optional model
never returns `none`). -/
theorem claim_C9 (colorlist : List String) (words : List Word)
    (hlen : colorlist.length = 5)
    (hinv : ∀ w ∈ words, ∀ t ∈ w, t.toneInv) :
    colorize colorlist words =
      some (words.map (fun w => (w.map (colorizeExpected colorlist)).flatten)) ∧
    (∀ w ∈ words, ∀ t ∈ w, ∀ tn, t.toneOf = some tn →
      tn - 1 < colorlist.length) := by
  constructor
  · induction words with
    | nil => rfl
    | cons w ws ih =>
        have hw : ∀ t ∈ w, t.toneInv := hinv w (by simp)
        have hws : ∀ v ∈ ws, ∀ t ∈ v, t.toneInv :=
          fun v hv => hinv v (by simp [hv])
        have hrest := ih hws
        simp only [colorize] at hrest
        simp [colorize, optionMapList, colorize_word_eq colorlist w hlen hw,
          hrest]
  · intro w hw t ht tn htn
    have := hinv w hw t ht
    cases t with
    | text s => simp [Token.toneOf] at htn
    | pinyin _ t0 =>
        simp [Token.toneOf] at htn
        obtain ⟨h1, h5⟩ := this
        omega
    | tonedCharacter _ t0 =>
        simp [Token.toneOf] at htn
        obtain ⟨h1, h5⟩ := this
        omega

/-- C9 witness: the theorem instantiated at a concrete 5-color list and a
concrete word. -/
theorem claim_C9_witness :
    colorize ["r", "o", "g", "b", "e"] [[.pinyin "ma" 3, .text "!"]] =
      some [[colorOpenTag "g", .pinyin "ma" 3, colorCloseTag, .text "!"]] := by
  have h := claim_C9 ["r", "o", "g", "b", "e"] [[.pinyin "ma" 3, .text "!"]]
    (by decide) (by decide)
  simpa [colorizeExpected, List.getD] using h.1

/-- C4: the per-leaf `visitToned` rewrite never alters a leaf whose tone is
not 3; it rewrites a third-tone leaf to tone 2 exactly when one of the four
contextual predicates of §4.2 holds (in particular for a non-word-final
syllable of a polysyllabic word following a monosyllabic word); otherwise
the tone-3 leaf is unchanged. -/
theorem claim_C4 :
    (∀ mb im lw ma t, t.toneOf ≠ some 3 → visitToned mb im lw ma t = t) ∧
    (∀ mb im lw ma w, visitToned mb im lw ma (Token.pinyin w 3) =
        (if shouldusethirdtone mb im lw ma then Token.pinyin w 2
         else Token.pinyin w 3)) ∧
    (∀ mb im lw ma c, visitToned mb im lw ma (Token.tonedCharacter c 3) =
        (if shouldusethirdtone mb im lw ma then Token.tonedCharacter c 2
         else Token.tonedCharacter c 3)) ∧
    (∀ mb im lw ma, shouldusethirdtone mb im lw ma = true ↔
        ((im = true ∧ ma = true) ∨ (im = false ∧ lw = false ∧ mb = true) ∨
         (im = false ∧ ma = true) ∨ (im = false ∧ lw = false ∧ ma = false))) ∧
    (∀ w ma, visitToned true false false ma (Token.pinyin w 3) =
        Token.pinyin w 2) := by
  refine ⟨?_, ?_, ?_, by decide, ?_⟩
  · intro mb im lw ma t ht
    cases t with
    | text s => rfl
    | pinyin w tn =>
        have : tn ≠ 3 := by simpa [Token.toneOf] using ht
        simp [visitToned, this]
    | tonedCharacter c tn =>
        have : tn ≠ 3 := by simpa [Token.toneOf] using ht
        simp [visitToned, this]
  · intro mb im lw ma w
    simp [visitToned]
  · intro mb im lw ma c
    simp [visitToned]
  · intro w ma
    simp [visitToned, shouldusethirdtone]

/-- C4 witness: a non-third-tone leaf is untouched in an arbitrary context,
instantiated concretely. -/
theorem claim_C4_witness :
    visitToned true true true true (Token.pinyin "ma" 1) =
      Token.pinyin "ma" 1 :=
  claim_C4.1 true true true true (Token.pinyin "ma" 1) (by decide)

/-- C2 (code evaluation at the failing inputs): `tonesandhi` raises a Python
`TypeError` on every one of the specification's three worked examples — the
wrapper unpacks the single bare function returned by `visitTokenList` as a
pair — instead of producing the claimed flattened strings. -/
theorem claim_C2_run :
    tonesandhi (.tlist [.leaf (.pinyin "hen" 3), .leaf (.pinyin "hao" 3)]) =
      .error "TypeError: cannot unpack non-sequence" ∧
    tonesandhi (.tlist [.word (.leaf (.pinyin "lao" 3)),
        .word (.tlist [.leaf (.pinyin "bao" 3), .leaf (.pinyin "guan" 3)])]) =
      .error "TypeError: cannot unpack non-sequence" ∧
    tonesandhi (.tlist [.word (.tlist [.leaf (.pinyin "bao" 3),
        .leaf (.pinyin "guan" 3)]), .word (.leaf (.pinyin "hao" 3))]) =
      .error "TypeError: cannot unpack non-sequence" :=
  ⟨rfl, rfl, rfl⟩

/-- C3 counterexample: the claim asserts that whenever the spelling contains
the umlaut-u digraph the candidate list also carries the `v`-rewritten
spellings; for the neutral-tone syllable `nu:5` the digraph is present but —
because the rewrite sits behind an `elif` — no `v` candidate is produced. -/
theorem claim_C3_cex :
    containsUColon "nu:" = true ∧
    possiblebases "nu:" 5 = ["nu:5", "nu:", "nu:4"] ∧
    ¬ ("nv5" ∈ possiblebases "nu:" 5) ∧
    ¬ ("nv" ∈ possiblebases "nu:" 5) ∧
    ¬ ("nv4" ∈ possiblebases "nu:" 5) := by
  decide

/-- C3 (amended): the candidate order is the numeric spelling first, then
for tone 5 the bare spelling and the tone-4 spelling, and otherwise — only
when the tone is not 5 — the `v`-rewritten spelling when the digraph is
present; the first candidate for which the pack reports a match wins. -/
theorem claim_C3_amended :
    (∀ w tone, possiblebases w tone =
        [w ++ toString tone] ++
          (if tone = 5 then [w, w ++ "4"]
           else if containsUColon w = true then
             [pyReplace w "u:" "v" ++ toString tone]
           else [])) ∧
    (∀ (pack : MediaPack) (exts : List String) (bases : List String)
        (i : Nat) (hi : i < bases.length) (m : String),
        (∀ j, (hj : j < i) →
          pack.mediafor (bases.get ⟨j, Nat.lt_trans hj hi⟩) exts = none) →
        pack.mediafor (bases.get ⟨i, hi⟩) exts = some m →
        findMedia pack exts bases = some m) := by
  constructor
  · intro w tone
    by_cases h : tone = 5 <;> simp [possiblebases, h]
  · intro pack exts bases
    induction bases with
    | nil => intro i hi; simp at hi
    | cons b bs ih =>
        intro i hi m hnone hsome
        match i with
        | 0 =>
            simp at hsome
            simp [findMedia, List.findSome?_cons, hsome]
        | j + 1 =>
            have h0 : pack.mediafor b exts = none := by
              simpa using hnone 0 (Nat.succ_pos j)
            have hrest := ih j (by simpa using hi) m
              (fun k hk => by simpa using hnone (k + 1) (by omega))
              (by simpa using hsome)
            simpa [findMedia, List.findSome?_cons, h0] using hrest

/-- C3 witness: the amended first-match rule applied at a concrete pack in
which only the second candidate resolves. -/
theorem claim_C3_amended_witness :
    findMedia ⟨"T", [("y.mp3", "y.mp3")]⟩ [".mp3"] ["x", "y"] =
      some "y.mp3" :=
  claim_C3_amended.2 ⟨"T", [("y.mp3", "y.mp3")]⟩ [".mp3"] ["x", "y"] 1
    (by decide) "y.mp3"
    (fun j hj => by
      have hj0 : j = 0 := by omega
      subst hj0
      rfl)
    (by decide)

/-- C5: parsing `"/morning/CL:個|个[ge4]/"` with simplified-character index
1 yields meanings flattening to `["morning"]`; the measure words flatten to
`["个 - ge4"]` under simplified preference and `["個 - ge4"]` under
traditional preference, and in both cases the bracketed pronunciation is a
distinct `Pinyin` token after the literal `" - "` separator. -/
theorem claim_C5 :
    ((parsedefinition 1 "simp" "/morning/CL:個|个[ge4]/").1.map flattenWord =
      ["morning"]) ∧
    ((parsedefinition 1 "simp" "/morning/CL:個|个[ge4]/").2.map flattenWord =
      ["个 - ge4"]) ∧
    ((parsedefinition 1 "trad" "/morning/CL:個|个[ge4]/").2.map flattenWord =
      ["個 - ge4"]) ∧
    ((parsedefinition 1 "simp" "/morning/CL:個|个[ge4]/").2 =
      [[Token.text "个", Token.text " - ", Token.pinyin "ge" 4]]) ∧
    ((parsedefinition 1 "trad" "/morning/CL:個|个[ge4]/").2 =
      [[Token.text "個", Token.text " - ", Token.pinyin "ge" 4]]) := by
  refine ⟨by decide, by decide, by decide, by decide, by decide⟩

/-- C6: with more than one meaning and a configured numbering scheme, the
n-th meaning is prefixed with the n-th symbol of the scheme, falling back to
the Arabic `"(n+1)"` once the sequence is exhausted; meanings are joined
with the configured separator (`"lines"` giving the line break, `"commas"`
giving `", "`, custom otherwise); a single meaning is never numbered; and
the worked example evaluates to `"(1) a<br />(2) b"`. -/
theorem claim_C6 :
    (∀ strs sepstr meanings, meanings.length > 1 →
        formatmeanings (some strs) sepstr meanings =
          String.intercalate sepstr
            (meanings.enum.map
              (fun p => meaningnumber strs p.1 ++ " " ++ p.2))) ∧
    (∀ strs n, (h : n < strs.length) →
        meaningnumber strs n = strs.get ⟨n, h⟩) ∧
    (∀ strs n, strs.length ≤ n →
        meaningnumber strs n = "(" ++ toString (n + 1) ++ ")") ∧
    (∀ numbering sepstr m, formatmeanings numbering sepstr [m] = m) ∧
    (∀ custom, meaningseperatorstring "lines" custom = "<br />") ∧
    (∀ custom, meaningseperatorstring "commas" custom = ", ") ∧
    (∀ custom, meaningseperatorstring "custom" custom = custom) ∧
    formatmeaningsConfig "arabicParens" "lines" " | " ["a", "b"] =
      "(1) a<br />(2) b" := by
  refine ⟨?_, ?_, ?_, ?_, ?_, ?_, ?_, by decide⟩
  · intro strs sepstr meanings h
    simp [formatmeanings, h]
  · intro strs n h
    have hx : strs[n]? = some strs[n] := List.getElem?_eq_getElem h
    simp [meaningnumber, List.get?_eq_getElem?, hx]
  · intro strs n h
    have hx : strs[n]? = none := List.getElem?_eq_none h
    simp [meaningnumber, List.get?_eq_getElem?, hx]
  · intro numbering sepstr m
    cases numbering <;> rfl
  · intro custom; rfl
  · intro custom; rfl
  · intro custom; rfl

/-- C6 witness: the numbering rule applied at the concrete two-element list
with the exhausted (empty) Arabic-parenthesis sequence. -/
theorem claim_C6_witness :
    formatmeanings (some []) "<br />" ["a", "b"] =
      String.intercalate "<br />"
        ((["a", "b"].enum).map
          (fun p => meaningnumber [] p.1 ++ " " ++ p.2)) :=
  claim_C6.1 [] "<br />" ["a", "b"] (by decide)

/-- C1 counterexample: a non-empty pack list for which `audioreading`
returns no pack at all — the loop's initial best count is
`len(tokens) + 1`, and a pack missing more syllables than that (here one
word of three syllables, all missing, against best count 2) is never
recorded, so the claim's "returns a pack whose missing-count is minimal"
fails. -/
theorem claim_C1_cex :
    ([(⟨"Empty", []⟩ : MediaPack)] ≠ []) ∧
    missingCount [".mp3"]
      [[.pinyin "a" 1, .pinyin "b" 1, .pinyin "c" 1]] ⟨"Empty", []⟩ = 3 ∧
    (audioreading [⟨"Empty", []⟩] [".mp3"] 0
      [[.pinyin "a" 1, .pinyin "b" 1, .pinyin "c" 1]]).pack = none := by
  refine ⟨by decide, by decide, by decide⟩

/-- C1 (amended): provided some pack misses at most `len(tokens) + 1`
syllables, the tie-break pool is exactly the set of packs attaining the
minimal missing count (so the uniform choice is over exactly the minimal
set), the returned pack is a supplied pack of minimal missing count, and
every pack in the pool is returned for some draw of the random index. -/
theorem claim_C1 (packs : List MediaPack) (exts : List String)
    (words : List Word) (choose : Nat)
    (hmin : ∃ p ∈ packs, missingCount exts words p ≤ words.length + 1) :
    (packLoop exts words packs [] (words.length + 1)).1 =
      candidatesFor exts words packs (words.length + 1) ∧
    (∃ p, (audioreading packs exts choose words).pack = some p ∧ p ∈ packs ∧
        ∀ q ∈ packs, missingCount exts words p ≤ missingCount exts words q) ∧
    (∀ pr ∈ candidatesFor exts words packs (words.length + 1),
        pr.1 ∈ packs ∧
        (∀ q ∈ packs, missingCount exts words pr.1 ≤ missingCount exts words q) ∧
        ∃ ch, (audioreading packs exts ch words).pack = some pr.1) := by
  have hfst : (packLoop exts words packs [] (words.length + 1)).1 =
      candidatesFor exts words packs (words.length + 1) := by
    rw [packLoop_spec]
    simp
  refine ⟨hfst, ?_, ?_⟩
  · obtain ⟨p0, hp0, hp0eq⟩ := minMissing_attained exts words packs _ hmin
    have hp0mem : (p0, (audioreadingforpack p0 exts (trimerhua words)).1) ∈
        candidatesFor exts words packs (words.length + 1) := by
      refine List.mem_map.mpr ⟨p0, List.mem_filter.mpr ⟨hp0, ?_⟩, rfl⟩
      simpa using hp0eq
    have hne : candidatesFor exts words packs (words.length + 1) ≠ [] :=
      List.ne_nil_of_mem hp0mem
    obtain ⟨chosen, hch, hchmem⟩ := chooseFrom_of_ne choose hne
    obtain ⟨hmem, hmineq, _⟩ := mem_candidatesFor hchmem
    refine ⟨chosen.1, ?_, hmem, ?_⟩
    · simp only [audioreading, hfst, hch]
    · intro q hq
      rw [hmineq]
      exact minMissing_le_mem exts words packs _ q hq
  · intro pr hpr
    obtain ⟨hmem, hmineq, _⟩ := mem_candidatesFor hpr
    refine ⟨hmem, ?_, ?_⟩
    · intro q hq
      rw [hmineq]
      exact minMissing_le_mem exts words packs _ q hq
    · obtain ⟨i, hi⟩ := List.mem_iff_get.mp hpr
      refine ⟨i.1, ?_⟩
      have hch := chooseFrom_at
        (candidatesFor exts words packs (words.length + 1)) i
      rw [hi] at hch
      simp only [audioreading, hfst, hch]

/-- C1 witness: the amended theorem applied to one pack resolving the lone
syllable. -/
theorem claim_C1_witness :
    ∃ p, (audioreading [⟨"T", [("ni3.mp3", "ni3.mp3")]⟩] [".mp3"] 0
        [[.pinyin "ni" 3]]).pack = some p ∧
      p ∈ [(⟨"T", [("ni3.mp3", "ni3.mp3")]⟩ : MediaPack)] ∧
      ∀ q ∈ [(⟨"T", [("ni3.mp3", "ni3.mp3")]⟩ : MediaPack)],
        missingCount [".mp3"] [[.pinyin "ni" 3]] p ≤
          missingCount [".mp3"] [[.pinyin "ni" 3]] q :=
  (claim_C1 [⟨"T", [("ni3.mp3", "ni3.mp3")]⟩] [".mp3"] [[.pinyin "ni" 3]] 0
    (by decide)).2.1

/-- C7 counterexample: a single supplied pack that is empty — the claim says
the result is then (no pack, empty list, incomplete); the code instead
returns the empty pack itself. -/
theorem claim_C7_cex :
    (∀ p ∈ [(⟨"Empty", []⟩ : MediaPack)], p.files = []) ∧
    ([(⟨"Empty", []⟩ : MediaPack)] ≠ []) ∧
    (audioreading [⟨"Empty", []⟩] [".mp3"] 0 [[.pinyin "ni" 3]] =
      ⟨some ⟨"Empty", []⟩, [], true⟩) := by
  refine ⟨by decide, by decide, by decide⟩

/-- C7 (amended): `audioreading` is total (never raises); when a pack is
returned the incomplete flag is true iff that pack's missing count is
nonzero; per pack, the output is the in-order list of resolved media with
missing syllables contributing nothing, and the missing count is the number
of unresolvable `Pinyin` leaves; with no packs the result is
(no pack, empty list, incomplete); when every supplied pack is empty the
output is empty and the incomplete flag is true iff the trimmed tokens
contain any `Pinyin` syllable (but the returned pack need not be `none`). -/
theorem claim_C7 (packs : List MediaPack) (exts : List String)
    (words : List Word) (choose : Nat) :
    (packs = [] → audioreading packs exts choose words = ⟨none, [], true⟩) ∧
    (∀ p, (audioreading packs exts choose words).pack = some p →
        (audioreading packs exts choose words).incomplete =
          (missingCount exts words p != 0)) ∧
    (∀ p : MediaPack, audioreadingforpack p exts (trimerhua words) =
        ((trimerhua words).flatten.filterMap (resolveLeaf p exts),
         ((trimerhua words).flatten.filter (leafMissing p exts)).length)) ∧
    (packs ≠ [] → (∀ p ∈ packs, p.files = []) →
        (audioreading packs exts choose words).output = [] ∧
        (audioreading packs exts choose words).incomplete =
          (trimerhua words).flatten.any isPinyinTok) := by
  have hsnd : (packLoop exts words packs [] (words.length + 1)).2 =
      minMissing exts words (words.length + 1) packs := by
    rw [packLoop_spec]
  have hfst : (packLoop exts words packs [] (words.length + 1)).1 =
      candidatesFor exts words packs (words.length + 1) := by
    rw [packLoop_spec]
    simp
  refine ⟨?_, ?_, fun p => audioreadingforpack_eq p exts words, ?_⟩
  · intro h
    subst h
    rfl
  · intro p hp
    cases hch : chooseFrom choose
        (packLoop exts words packs [] (words.length + 1)).1 with
    | none => simp [audioreading, hch] at hp
    | some chosen =>
        have hpe : chosen.1 = p := by
          simpa [audioreading, hch] using hp
        have hchmem : chosen ∈ candidatesFor exts words packs
            (words.length + 1) := by
          have hx := chooseFrom_mem hch
          rwa [hfst] at hx
        obtain ⟨_, hmineq, _⟩ := mem_candidatesFor hchmem
        rw [← hpe]
        simp [audioreading, hch, hsnd, hmineq]
  · intro hne hempty
    -- with every pack empty every pinyin leaf misses and nothing resolves
    have hmiss : ∀ p ∈ packs, missingCount exts words p =
        ((trimerhua words).flatten.filter isPinyinTok).length := by
      intro p hp
      have := audioreadingforpack_eq p exts words
      have hcong : (trimerhua words).flatten.filter (leafMissing p exts) =
          (trimerhua words).flatten.filter isPinyinTok := by
        refine List.filter_congr ?_
        intro t _
        cases t <;>
          simp [leafMissing, isPinyinTok,
            findMedia_empty p (hempty p hp)]
      simp [missingCount, this, hcong]
    have hout : ∀ p ∈ packs,
        (audioreadingforpack p exts (trimerhua words)).1 = [] := by
      intro p hp
      have := audioreadingforpack_eq p exts words
      have hcong : (trimerhua words).flatten.filterMap (resolveLeaf p exts)
          = [] := by
        refine List.filterMap_eq_nil_iff.mpr ?_
        intro t _
        cases t <;> simp [resolveLeaf, findMedia_empty p (hempty p hp)]
      simp [this, hcong]
    cases hch : chooseFrom choose
        (packLoop exts words packs [] (words.length + 1)).1 with
    | none =>
        -- no candidates survived: the minimum exceeded the initial best
        have hcand : candidatesFor exts words packs (words.length + 1) = [] := by
          by_contra hc
          obtain ⟨x, hx, _⟩ := chooseFrom_of_ne choose hc
          rw [hfst] at hch
          simp [hch] at hx
        have hbig : ¬ ∃ p ∈ packs,
            missingCount exts words p ≤ words.length + 1 := by
          intro hex
          obtain ⟨p0, hp0, hp0eq⟩ := minMissing_attained exts words packs _ hex
          have : (p0, (audioreadingforpack p0 exts (trimerhua words)).1) ∈
              candidatesFor exts words packs (words.length + 1) := by
            refine List.mem_map.mpr ⟨p0, List.mem_filter.mpr ⟨hp0, ?_⟩, rfl⟩
            simpa using hp0eq
          rw [hcand] at this
          simp at this
        obtain ⟨q0, hq0⟩ := List.exists_mem_of_ne_nil packs hne
        have hsq : ¬ ((trimerhua words).flatten.filter isPinyinTok).length ≤
            words.length + 1 := by
          intro hle
          exact hbig ⟨q0, hq0, by rw [hmiss q0 hq0]; exact hle⟩
        have hpos : 0 < ((trimerhua words).flatten.filter isPinyinTok).length := by
          omega
        have hanyt : (trimerhua words).flatten.any isPinyinTok = true := by
          rw [← filter_length_any]
          simp only [bne_iff_ne, ne_eq]
          omega
        constructor
        · simp [audioreading, hch]
        · simp [audioreading, hch, hanyt]
    | some chosen =>
        have hchmem : chosen ∈ candidatesFor exts words packs
            (words.length + 1) := by
          have hx := chooseFrom_mem hch
          rwa [hfst] at hx
        obtain ⟨hmem, hmineq, hsndeq⟩ := mem_candidatesFor hchmem
        constructor
        · simp [audioreading, hch, AudioResult.output, hsndeq, hout _ hmem]
        · have hc2 : minMissing exts words (words.length + 1) packs =
              ((trimerhua words).flatten.filter isPinyinTok).length := by
            rw [← hmineq, hmiss _ hmem]
          have hinc : (audioreading packs exts choose words).incomplete =
              ((packLoop exts words packs [] (words.length + 1)).2 != 0) := by
            simp [audioreading, hch]
          rw [hinc, hsnd, hc2, filter_length_any]

/-- C7 witness: the amended empty-pack clause applied at one empty pack and
one neutral-tone syllable. -/
theorem claim_C7_witness :
    (audioreading [⟨"E", []⟩] [".ogg"] 0 [[.pinyin "de" 5]]).output = [] ∧
    (audioreading [⟨"E", []⟩] [".ogg"] 0 [[.pinyin "de" 5]]).incomplete =
      (trimerhua [[.pinyin "de" 5]]).flatten.any isPinyinTok :=
  (claim_C7 [⟨"E", []⟩] [".ogg"] [[.pinyin "de" 5]] 0).2.2.2
    (by decide) (by decide)

/-! ## Heap-model lemmas for the configuration claim -/

theorem optionMapList_congr {α β : Type} {f g : α → Option β} :
    ∀ {l : List α}, (∀ x ∈ l, f x = g x) →
      optionMapList f l = optionMapList g l := by
  intro l
  induction l with
  | nil => intro _; rfl
  | cons a as ih =>
      intro h
      have ha := h a (by simp)
      have has := ih (fun x hx => h x (by simp [hx]))
      simp [optionMapList, ha, has]

theorem heap_get?_append {h t : Heap} {j : Nat} (hj : j < h.length) :
    (h ++ t)[j]? = h[j]? :=
  List.getElem?_append_left hj

theorem heap_get?_append_len {h : Heap} {c : Cell} {t : Heap} :
    (h ++ c :: t)[h.length]? = some c := by
  rw [List.getElem?_append_right (Nat.le_refl _)]
  simp

theorem heap_get?_lt {h : Heap} {j : Nat} {c : Cell}
    (hc : h[j]? = some c) : j < h.length := by
  by_contra hge
  rw [List.getElem?_eq_none (by omega)] at hc
  exact Option.noConfusion hc

theorem readout_frame (B : Nat) :
    ∀ (g : Nat) (h h2 : Heap),
      HeapWf h →
      (∀ j, j < B → h2[j]? = h[j]?) →
      ∀ (v : PyVal), ValBelow B v →
      readoutV g h2 v = readoutV g h v := by
  intro g
  induction g with
  | zero =>
      intro h h2 _ _ v _
      cases v <;> rfl
  | succ g ih =>
      intro h h2 hwf hagree v hv
      cases v with
      | prim s => rfl
      | ref a =>
          have ha : a < B := hv
          have hga : h2[a]? = h[a]? := hagree a ha
          cases hc : h[a]? with
          | none => simp [readoutV, hga, hc]
          | some c =>
              cases c with
              | listC vs =>
                  simp only [readoutV, hga, hc]
                  congr 1
                  refine optionMapList_congr ?_
                  intro x hx
                  refine ih h h2 hwf hagree x ?_
                  cases x with
                  | prim s => trivial
                  | ref a2 =>
                      have hmem : a2 ∈ (Cell.listC vs).refs :=
                        List.mem_filterMap.mpr ⟨.ref a2, hx, rfl⟩
                      exact lt_trans (hwf a _ hc a2 hmem) ha
              | dictC es =>
                  simp only [readoutV, hga, hc]
                  congr 1
                  refine optionMapList_congr ?_
                  intro x hx
                  have : readoutV g h2 x.2 = readoutV g h x.2 := by
                    refine ih h h2 hwf hagree x.2 ?_
                    cases hx2 : x.2 with
                    | prim s => trivial
                    | ref a2 =>
                        have hmem : a2 ∈ (Cell.dictC es).refs := by
                          refine List.mem_filterMap.mpr ⟨x, hx, ?_⟩
                          simp [hx2]
                        exact lt_trans (hwf a _ hc a2 hmem) ha
                  rw [this]

theorem valBelow_mono {B B' : Nat} (hbb : B ≤ B') :
    ∀ {v : PyVal}, ValBelow B v → ValBelow B' v := by
  intro v
  cases v with
  | prim s => intro _; trivial
  | ref a => intro hv; exact lt_of_lt_of_le hv hbb

theorem valAbove_mono {lo lo' : Nat} (hll : lo ≤ lo') :
    ∀ {v : PyVal}, ValAbove lo' v → ValAbove lo v := by
  intro v
  cases v with
  | prim s => intro _; trivial
  | ref a => intro hv; exact le_trans hll hv

theorem heap_get?_snoc (h : Heap) (c : Cell) (j : Nat) :
    (h ++ [c])[j]? =
      if j < h.length then h[j]?
      else if j = h.length then some c else none := by
  by_cases hj : j < h.length
  · rw [if_pos hj, List.getElem?_append_left hj]
  · rw [if_neg hj]
    by_cases he : j = h.length
    · rw [if_pos he, he]
      exact heap_get?_append_len
    · rw [if_neg he]
      rw [List.getElem?_eq_none (by simp; omega)]

theorem assocFind_mem {k : String} {v : PyVal} :
    ∀ {es : List (String × PyVal)},
      assocFind k es = some v → ∃ e ∈ es, e.2 = v := by
  intro es
  induction es with
  | nil => intro h; exact absurd h (by simp [assocFind])
  | cons e es ih =>
      intro h
      by_cases hek : (e.1 == k)
      · simp only [assocFind, hek, if_true] at h
        exact ⟨e, by simp, by simpa using h⟩
      · simp only [assocFind] at h
        rw [if_neg (by simp [hek])] at h
        obtain ⟨x, hx, hxv⟩ := ih h
        exact ⟨x, by simp [hx], hxv⟩

theorem upsert_mem {es : List (String × PyVal)} {k : String} {v : PyVal}
    {e : String × PyVal} (h : e ∈ upsert es k v) : e.2 = v ∨ e ∈ es := by
  by_cases hc : es.any (fun x => x.1 == k)
  · simp only [upsert, if_pos hc] at h
    obtain ⟨x, hx, hxe⟩ := List.mem_map.mp h
    by_cases hk : (x.1 == k)
    · rw [if_pos hk] at hxe
      exact Or.inl (by rw [← hxe])
    · rw [if_neg hk] at hxe
      exact Or.inr (hxe ▸ hx)
  · simp only [upsert, if_neg hc, List.mem_append] at h
    rcases h with h | h
    · exact Or.inr h
    · simp at h
      exact Or.inl (by rw [h])

theorem assocFind_cons_pos {k : String} {e : String × PyVal}
    {es : List (String × PyVal)} (hek : (e.1 == k) = true) :
    assocFind k (e :: es) = some e.2 := by
  simp [assocFind, hek]

theorem assocFind_cons_neg {k : String} {e : String × PyVal}
    {es : List (String × PyVal)} (hek : (e.1 == k) = false) :
    assocFind k (e :: es) = assocFind k es := by
  simp [assocFind, hek]

theorem assocFind_map_subst (k : String) (v : PyVal) :
    ∀ (es : List (String × PyVal)),
      assocFind k (es.map (fun e => if e.1 == k then (k, v) else e)) =
        match assocFind k es with
        | some _ => some v
        | none => none := by
  intro es
  induction es with
  | nil => rfl
  | cons e es ih =>
      rw [List.map_cons]
      by_cases hek : (e.1 == k)
      · rw [if_pos hek, assocFind_cons_pos (by simp),
          assocFind_cons_pos hek]
      · have hekf : (e.1 == k) = false := by simpa using hek
        rw [if_neg (by simp [hekf]), assocFind_cons_neg hekf,
          assocFind_cons_neg hekf, ih]

theorem assocFind_eq_none_of_any_false {k : String} :
    ∀ {es : List (String × PyVal)},
      es.any (fun x => x.1 == k) = false → assocFind k es = none := by
  intro es
  induction es with
  | nil => intro _; rfl
  | cons e es ih =>
      intro h
      simp only [List.any_cons, Bool.or_eq_false_iff] at h
      rw [assocFind_cons_neg h.1]
      exact ih h.2

theorem assocFind_isSome_of_any {k : String} :
    ∀ {es : List (String × PyVal)},
      es.any (fun x => x.1 == k) = true → (assocFind k es).isSome := by
  intro es
  induction es with
  | nil => intro h; simp at h
  | cons e es ih =>
      intro h
      by_cases hek : (e.1 == k)
      · rw [assocFind_cons_pos hek]; rfl
      · have hekf : (e.1 == k) = false := by simpa using hek
        simp only [List.any_cons, hekf, Bool.false_or] at h
        rw [assocFind_cons_neg hekf]
        exact ih h

theorem assocFind_append_right (k : String) (l1 l2 : List (String × PyVal)) :
    assocFind k (l1 ++ l2) =
      match assocFind k l1 with
      | some v => some v
      | none => assocFind k l2 := by
  induction l1 with
  | nil => rfl
  | cons e l1 ih =>
      by_cases hek : (e.1 == k)
      · rw [List.cons_append, assocFind_cons_pos hek, assocFind_cons_pos hek]
      · have hekf : (e.1 == k) = false := by simpa using hek
        rw [List.cons_append, assocFind_cons_neg hekf,
          assocFind_cons_neg hekf, ih]

theorem assocFind_upsert_self (es : List (String × PyVal)) (k : String)
    (v : PyVal) : assocFind k (upsert es k v) = some v := by
  by_cases hc : es.any (fun x => x.1 == k)
  · rw [upsert, if_pos hc, assocFind_map_subst]
    have hs := assocFind_isSome_of_any hc
    cases hf : assocFind k es with
    | none => rw [hf] at hs; simp at hs
    | some w => simp
  · have hcf : es.any (fun x => x.1 == k) = false := by
      revert hc
      cases es.any (fun x => x.1 == k) <;> simp
    rw [upsert, if_neg hc, assocFind_append_right,
      assocFind_eq_none_of_any_false hcf]
    exact assocFind_cons_pos (by simp)

theorem assocFind_map_subst_other (k k' : String) (v : PyVal)
    (hkkf : (k == k') = false) :
    ∀ (es : List (String × PyVal)),
      assocFind k' (es.map (fun e => if e.1 == k then (k, v) else e)) =
        assocFind k' es := by
  intro es
  induction es with
  | nil => rfl
  | cons e es ih =>
      rw [List.map_cons]
      by_cases hek : (e.1 == k)
      · have he1 : e.1 = k := by simpa using hek
        have hek' : (e.1 == k') = false := by rw [he1]; exact hkkf
        rw [if_pos hek, assocFind_cons_neg hkkf,
          assocFind_cons_neg hek', ih]
      · by_cases hek' : (e.1 == k')
        · rw [if_neg hek, assocFind_cons_pos hek',
            assocFind_cons_pos hek']
        · have hekf' : (e.1 == k') = false := by simpa using hek'
          rw [if_neg hek, assocFind_cons_neg hekf',
            assocFind_cons_neg hekf', ih]

theorem assocFind_upsert_other (es : List (String × PyVal)) (k k' : String)
    (v : PyVal) (hkk : k' ≠ k) :
    assocFind k' (upsert es k v) = assocFind k' es := by
  have hkkf : (k == k') = false := by
    simp only [beq_eq_false_iff_ne, ne_eq]
    exact fun h => hkk h.symm
  by_cases hc : es.any (fun x => x.1 == k)
  · rw [upsert, if_pos hc]
    exact assocFind_map_subst_other k k' v hkkf es
  · rw [upsert, if_neg hc, assocFind_append_right]
    cases hf : assocFind k' es with
    | some w => simp
    | none => rw [assocFind_cons_neg hkkf]; rfl

theorem lastVal_append (k : String) (l1 l2 : List (String × PyVal)) :
    lastVal k (l1 ++ l2) =
      match lastVal k l2 with
      | some v => some v
      | none => lastVal k l1 := by
  induction l1 with
  | nil =>
      cases h2 : lastVal k l2 <;> simp [lastVal, h2]
  | cons e l1 ih =>
      rw [List.cons_append]
      show (match lastVal k (l1 ++ l2) with
        | some v => some v
        | none => if e.1 == k then some e.2 else none) = _
      rw [ih]
      cases h2 : lastVal k l2 with
      | none => rfl
      | some w => cases h1 : lastVal k l1 <;> rfl

theorem deepcopyL_ok_of (f : Nat) (hV : DeepcopyVOk f) : DeepcopyLOk f := by
  intro h vs
  induction vs generalizing h with
  | nil =>
      intro h2 vs2 hdc
      simp only [deepcopyL, Option.some.injEq, Prod.mk.injEq] at hdc
      obtain ⟨rfl, rfl⟩ := hdc
      exact ⟨⟨[], by simp⟩, fun hw => hw, by simp, by simp,
        fun lo _ hrc => hrc, fun _ _ g => rfl⟩
  | cons v vs ih =>
      intro h2 vs2 hdc
      rw [deepcopyL] at hdc
      cases hv1 : deepcopyV f h v with
      | none => rw [hv1] at hdc; exact absurd hdc (by simp)
      | some r1 =>
          obtain ⟨h1, v1⟩ := r1
          rw [hv1] at hdc
          dsimp only at hdc
          cases hrest : deepcopyL f h1 vs with
          | none => rw [hrest] at hdc; exact absurd hdc (by simp)
          | some r2 =>
              obtain ⟨h3, vs3⟩ := r2
              rw [hrest] at hdc
              simp only [Option.some.injEq, Prod.mk.injEq] at hdc
              obtain ⟨rfl, rfl⟩ := hdc
              obtain ⟨⟨t1, ht1⟩, hwf1, habove1, hbelow1, hrc1, hro1⟩ :=
                hV h v h1 v1 hv1
              obtain ⟨⟨t2, ht2⟩, hwf2, habove2, hbelow2, hrc2, hro2⟩ :=
                ih h1 h3 vs3 hrest
              have hlen1 : h.length ≤ h1.length := by
                rw [ht1]
                simp
              have hlen2 : h1.length ≤ h3.length := by
                rw [ht2]
                simp
              refine ⟨⟨t1 ++ t2, by rw [ht2, ht1]; simp⟩, ?_, ?_, ?_, ?_, ?_⟩
              · exact fun hw => hwf2 (hwf1 hw)
              · intro x hx
                rcases List.mem_cons.mp hx with rfl | hx2
                · exact habove1
                · exact valAbove_mono hlen1 (habove2 x hx2)
              · intro x hx
                rcases List.mem_cons.mp hx with rfl | hx2
                · exact valBelow_mono hlen2 hbelow1
                · exact hbelow2 x hx2
              · intro lo hlo hrc
                exact hrc2 lo (le_trans hlo hlen1) (hrc1 lo hlo hrc)
              · intro hw hbound g
                have hagree1 : ∀ j, j < h1.length → h3[j]? = h1[j]? := by
                  intro j hj
                  rw [ht2]
                  exact heap_get?_append hj
                have hstep1 : readoutV g h3 v1 = readoutV g h v := by
                  have e1 : readoutV g h3 v1 = readoutV g h1 v1 :=
                    readout_frame h1.length g h1 h3 (hwf1 hw) hagree1 v1
                      hbelow1
                  rw [e1]
                  exact hro1 hw g
                have hstep2 : optionMapList (readoutV g h3) vs3 =
                    optionMapList (readoutV g h) vs := by
                  have e2 := hro2 (hwf1 hw)
                    (fun x hx => valBelow_mono hlen1
                      (hbound x (by simp [hx]))) g
                  rw [e2]
                  refine optionMapList_congr ?_
                  intro x hx
                  exact readout_frame h.length g h h1 hw
                    (fun j hj => by rw [ht1]; exact heap_get?_append hj) x
                    (hbound x (by simp [hx]))
                simp [optionMapList, hstep1, hstep2]

theorem deepcopyE_ok_of (f : Nat) (hV : DeepcopyVOk f) : DeepcopyEOk f := by
  intro h es
  induction es generalizing h with
  | nil =>
      intro h2 es2 hdc
      simp only [deepcopyE, Option.some.injEq, Prod.mk.injEq] at hdc
      obtain ⟨rfl, rfl⟩ := hdc
      exact ⟨⟨[], by simp⟩, fun hw => hw, by simp, by simp,
        fun lo _ hrc => hrc, fun _ _ g => rfl⟩
  | cons e es ih =>
      intro h2 es2 hdc
      rw [deepcopyE] at hdc
      cases hv1 : deepcopyV f h e.2 with
      | none => rw [hv1] at hdc; exact absurd hdc (by simp)
      | some r1 =>
          obtain ⟨h1, v1⟩ := r1
          rw [hv1] at hdc
          dsimp only at hdc
          cases hrest : deepcopyE f h1 es with
          | none => rw [hrest] at hdc; exact absurd hdc (by simp)
          | some r2 =>
              obtain ⟨h3, es3⟩ := r2
              rw [hrest] at hdc
              simp only [Option.some.injEq, Prod.mk.injEq] at hdc
              obtain ⟨rfl, rfl⟩ := hdc
              obtain ⟨⟨t1, ht1⟩, hwf1, habove1, hbelow1, hrc1, hro1⟩ :=
                hV h e.2 h1 v1 hv1
              obtain ⟨⟨t2, ht2⟩, hwf2, habove2, hbelow2, hrc2, hro2⟩ :=
                ih h1 h3 es3 hrest
              have hlen1 : h.length ≤ h1.length := by
                rw [ht1]
                simp
              have hlen2 : h1.length ≤ h3.length := by
                rw [ht2]
                simp
              refine ⟨⟨t1 ++ t2, by rw [ht2, ht1]; simp⟩, ?_, ?_, ?_, ?_, ?_⟩
              · exact fun hw => hwf2 (hwf1 hw)
              · intro x hx
                rcases List.mem_cons.mp hx with rfl | hx2
                · exact habove1
                · exact valAbove_mono hlen1 (habove2 x hx2)
              · intro x hx
                rcases List.mem_cons.mp hx with rfl | hx2
                · exact valBelow_mono hlen2 hbelow1
                · exact hbelow2 x hx2
              · intro lo hlo hrc
                exact hrc2 lo (le_trans hlo hlen1) (hrc1 lo hlo hrc)
              · intro hw hbound g
                have hagree1 : ∀ j, j < h1.length → h3[j]? = h1[j]? := by
                  intro j hj
                  rw [ht2]
                  exact heap_get?_append hj
                have hstep1 : readoutV g h3 v1 = readoutV g h e.2 := by
                  have e1 : readoutV g h3 v1 = readoutV g h1 v1 :=
                    readout_frame h1.length g h1 h3 (hwf1 hw) hagree1 v1
                      hbelow1
                  rw [e1]
                  exact hro1 hw g
                have hstep2 : optionMapList (fun x =>
                      (readoutV g h3 x.2).map (fun t => (x.1, t))) es3 =
                    optionMapList (fun x =>
                      (readoutV g h x.2).map (fun t => (x.1, t))) es := by
                  have e2 := hro2 (hwf1 hw)
                    (fun x hx => valBelow_mono hlen1
                      (hbound x (by simp [hx]))) g
                  rw [e2]
                  refine optionMapList_congr ?_
                  intro x hx
                  have : readoutV g h1 x.2 = readoutV g h x.2 :=
                    readout_frame h.length g h h1 hw
                      (fun j hj => by rw [ht1]; exact heap_get?_append hj) x.2
                      (hbound x (by simp [hx]))
                  rw [this]
                simp [optionMapList, hstep1, hstep2]

theorem refs_listC {vs : List PyVal} {a : Nat} :
    a ∈ (Cell.listC vs).refs ↔ PyVal.ref a ∈ vs := by
  simp only [Cell.refs, List.mem_filterMap]
  constructor
  · rintro ⟨v, hv, he⟩
    cases v with
    | prim s => exact absurd he (by simp)
    | ref b =>
        have : b = a := by simpa using he
        exact this ▸ hv
  · intro hv
    exact ⟨.ref a, hv, rfl⟩

theorem refs_dictC {es : List (String × PyVal)} {a : Nat} :
    a ∈ (Cell.dictC es).refs ↔ ∃ e ∈ es, e.2 = PyVal.ref a := by
  simp only [Cell.refs, List.mem_filterMap]
  constructor
  · rintro ⟨e, he, hm⟩
    cases hx : e.2 with
    | prim s => rw [hx] at hm; exact absurd hm (by simp)
    | ref b =>
        rw [hx] at hm
        have : b = a := by simpa using hm
        exact ⟨e, he, by rw [hx, this]⟩
  · rintro ⟨e, he, hm⟩
    exact ⟨e, he, by rw [hm]⟩

theorem heapWf_snoc {h : Heap} {c : Cell} (hw : HeapWf h)
    (hc : ∀ a ∈ c.refs, a < h.length) : HeapWf (h ++ [c]) := by
  intro i x hix a ha
  rw [heap_get?_snoc] at hix
  by_cases hi : i < h.length
  · rw [if_pos hi] at hix
    exact hw i x hix a ha
  · rw [if_neg hi] at hix
    by_cases he : i = h.length
    · rw [if_pos he] at hix
      have hxc : c = x := Option.some.inj hix
      subst he
      exact hc a (hxc ▸ ha)
    · rw [if_neg he] at hix
      exact absurd hix (by simp)

theorem regionClosed_snoc {h : Heap} {c : Cell} {lo : Nat}
    (hrc : RegionClosed h lo) (hc : ∀ a ∈ c.refs, lo ≤ a) :
    RegionClosed (h ++ [c]) lo := by
  intro i x hix hi a ha
  rw [heap_get?_snoc] at hix
  by_cases hlt : i < h.length
  · rw [if_pos hlt] at hix
    exact hrc i x hix hi a ha
  · rw [if_neg hlt] at hix
    by_cases he : i = h.length
    · rw [if_pos he] at hix
      have hxc : c = x := Option.some.inj hix
      exact hc a (hxc ▸ ha)
    · rw [if_neg he] at hix
      exact absurd hix (by simp)

theorem deepcopyV_ok : ∀ f : Nat, DeepcopyVOk f := by
  intro f
  induction f with
  | zero =>
      intro h v h2 v2 hdc
      cases v with
      | prim s =>
          simp only [deepcopyV, Option.some.injEq, Prod.mk.injEq] at hdc
          obtain ⟨rfl, rfl⟩ := hdc
          exact ⟨⟨[], by simp⟩, fun hw => hw, trivial, trivial,
            fun lo _ hrc => hrc, fun _ g => rfl⟩
      | ref a => exact absurd hdc (by simp [deepcopyV])
  | succ f ih =>
      have hL := deepcopyL_ok_of f ih
      have hE := deepcopyE_ok_of f ih
      intro h v h2 v2 hdc
      cases v with
      | prim s =>
          simp only [deepcopyV, Option.some.injEq, Prod.mk.injEq] at hdc
          obtain ⟨rfl, rfl⟩ := hdc
          exact ⟨⟨[], by simp⟩, fun hw => hw, trivial, trivial,
            fun lo _ hrc => hrc, fun _ g => rfl⟩
      | ref a =>
          rw [deepcopyV] at hdc
          cases hc : h[a]? with
          | none => rw [hc] at hdc; exact absurd hdc (by simp)
          | some cell =>
              rw [hc] at hdc
              have halen : a < h.length := heap_get?_lt hc
              cases cell with
              | listC vs =>
                  dsimp only at hdc
                  cases hl : deepcopyL f h vs with
                  | none => rw [hl] at hdc; exact absurd hdc (by simp)
                  | some r =>
                      obtain ⟨hm, vs2⟩ := r
                      rw [hl] at hdc
                      simp only [Option.some.injEq, Prod.mk.injEq] at hdc
                      obtain ⟨rfl, rfl⟩ := hdc
                      obtain ⟨⟨t, htm⟩, hwfm, habove, hbelow, hrc, hro⟩ :=
                        hL h vs hm vs2 hl
                      have hlenm : h.length ≤ hm.length := by
                        rw [htm]; simp
                      refine ⟨⟨t ++ [.listC vs2], by rw [htm]; simp⟩,
                        ?_, ?_, ?_, ?_, ?_⟩
                      · intro hw
                        refine heapWf_snoc (hwfm hw) ?_
                        intro x hx
                        exact hbelow _ (refs_listC.mp hx)
                      · exact le_trans hlenm (Nat.le_refl _)
                      · show List.length hm < List.length (hm ++ [Cell.listC vs2])
                        simp
                      · intro lo hlo hrcl
                        refine regionClosed_snoc (hrc lo hlo hrcl) ?_
                        intro x hx
                        exact le_trans hlo
                          (habove _ (refs_listC.mp hx))
                      · intro hw g
                        cases g with
                        | zero => rfl
                        | succ g =>
                            have hkids : ∀ x ∈ vs, ValBelow h.length x := by
                              intro x hx
                              cases x with
                              | prim s => trivial
                              | ref a2 =>
                                  exact lt_trans
                                    (hw a _ hc a2 (refs_listC.mpr hx)) halen
                            have hcell : (hm ++ [Cell.listC vs2])[hm.length]? =
                                some (Cell.listC vs2) := heap_get?_append_len
                            simp only [readoutV, hcell, hc]
                            congr 1
                            have e1 : optionMapList
                                (readoutV g (hm ++ [Cell.listC vs2])) vs2 =
                                optionMapList (readoutV g hm) vs2 := by
                              refine optionMapList_congr ?_
                              intro x hx
                              exact readout_frame hm.length g hm _ (hwfm hw)
                                (fun j hj => heap_get?_append hj) x
                                (hbelow x hx)
                            rw [e1]
                            exact hro hw hkids g
              | dictC es =>
                  dsimp only at hdc
                  cases hl : deepcopyE f h es with
                  | none => rw [hl] at hdc; exact absurd hdc (by simp)
                  | some r =>
                      obtain ⟨hm, es2⟩ := r
                      rw [hl] at hdc
                      simp only [Option.some.injEq, Prod.mk.injEq] at hdc
                      obtain ⟨rfl, rfl⟩ := hdc
                      obtain ⟨⟨t, htm⟩, hwfm, habove, hbelow, hrc, hro⟩ :=
                        hE h es hm es2 hl
                      have hlenm : h.length ≤ hm.length := by
                        rw [htm]; simp
                      refine ⟨⟨t ++ [.dictC es2], by rw [htm]; simp⟩,
                        ?_, ?_, ?_, ?_, ?_⟩
                      · intro hw
                        refine heapWf_snoc (hwfm hw) ?_
                        intro x hx
                        obtain ⟨e, he, hev⟩ := refs_dictC.mp hx
                        have := hbelow e he
                        rw [hev] at this
                        exact this
                      · exact hlenm
                      · show List.length hm < List.length (hm ++ [Cell.dictC es2])
                        simp
                      · intro lo hlo hrcl
                        refine regionClosed_snoc (hrc lo hlo hrcl) ?_
                        intro x hx
                        obtain ⟨e, he, hev⟩ := refs_dictC.mp hx
                        have := habove e he
                        rw [hev] at this
                        exact le_trans hlo this
                      · intro hw g
                        cases g with
                        | zero => rfl
                        | succ g =>
                            have hkids : ∀ e ∈ es, ValBelow h.length e.2 := by
                              intro e he
                              cases hx : e.2 with
                              | prim s => trivial
                              | ref a2 =>
                                  exact lt_trans
                                    (hw a _ hc a2 (refs_dictC.mpr ⟨e, he, hx⟩))
                                    halen
                            have hcell : (hm ++ [Cell.dictC es2])[hm.length]? =
                                some (Cell.dictC es2) := heap_get?_append_len
                            simp only [readoutV, hcell, hc]
                            congr 1
                            have e1 : optionMapList (fun e =>
                                  (readoutV g (hm ++ [Cell.dictC es2]) e.2).map
                                    (fun t => (e.1, t))) es2 =
                                optionMapList (fun e =>
                                  (readoutV g hm e.2).map
                                    (fun t => (e.1, t))) es2 := by
                              refine optionMapList_congr ?_
                              intro x hx
                              have : readoutV g (hm ++ [Cell.dictC es2]) x.2 =
                                  readoutV g hm x.2 :=
                                readout_frame hm.length g hm _ (hwfm hw)
                                  (fun j hj => heap_get?_append hj) x.2
                                  (hbelow x hx)
                              rw [this]
                            rw [e1]
                            exact hro hw hkids g

theorem deepcopyL_total_of (f : Nat)
    (hVt : ∀ (h : Heap) (v : PyVal), HeapWf h → ValBelow h.length v →
      ValFuel f v → (deepcopyV f h v).isSome) :
    ∀ (vs : List PyVal) (h : Heap), HeapWf h →
      (∀ x ∈ vs, ValBelow h.length x ∧ ValFuel f x) →
      (deepcopyL f h vs).isSome := by
  intro vs
  induction vs with
  | nil => intro h _ _; simp [deepcopyL]
  | cons v vs ih =>
      intro h hw hb
      have h1 := hVt h v hw (hb v (by simp)).1 (hb v (by simp)).2
      rw [Option.isSome_iff_exists] at h1
      obtain ⟨r1, hv1⟩ := h1
      obtain ⟨h1', v1⟩ := r1
      obtain ⟨⟨t, ht⟩, hwf1, _, _, _, _⟩ := deepcopyV_ok f h v h1' v1 hv1
      have h2 := ih h1' (hwf1 hw) (by
        intro x hx
        refine ⟨valBelow_mono ?_ (hb x (by simp [hx])).1,
          (hb x (by simp [hx])).2⟩
        rw [ht]
        simp)
      rw [Option.isSome_iff_exists] at h2
      obtain ⟨r2, hrest⟩ := h2
      obtain ⟨h3, vs3⟩ := r2
      rw [deepcopyL, hv1]
      dsimp only
      rw [hrest]
      rfl

theorem deepcopyE_total_of (f : Nat)
    (hVt : ∀ (h : Heap) (v : PyVal), HeapWf h → ValBelow h.length v →
      ValFuel f v → (deepcopyV f h v).isSome) :
    ∀ (es : List (String × PyVal)) (h : Heap), HeapWf h →
      (∀ e ∈ es, ValBelow h.length e.2 ∧ ValFuel f e.2) →
      (deepcopyE f h es).isSome := by
  intro es
  induction es with
  | nil => intro h _ _; simp [deepcopyE]
  | cons e es ih =>
      intro h hw hb
      have h1 := hVt h e.2 hw (hb e (by simp)).1 (hb e (by simp)).2
      rw [Option.isSome_iff_exists] at h1
      obtain ⟨r1, hv1⟩ := h1
      obtain ⟨h1', v1⟩ := r1
      obtain ⟨⟨t, ht⟩, hwf1, _, _, _, _⟩ := deepcopyV_ok f h e.2 h1' v1 hv1
      have h2 := ih h1' (hwf1 hw) (by
        intro x hx
        refine ⟨valBelow_mono ?_ (hb x (by simp [hx])).1,
          (hb x (by simp [hx])).2⟩
        rw [ht]
        simp)
      rw [Option.isSome_iff_exists] at h2
      obtain ⟨r2, hrest⟩ := h2
      obtain ⟨h3, es3⟩ := r2
      rw [deepcopyE, hv1]
      dsimp only
      rw [hrest]
      rfl

theorem deepcopyV_total : ∀ (f : Nat) (h : Heap) (v : PyVal), HeapWf h →
    ValBelow h.length v → ValFuel f v → (deepcopyV f h v).isSome := by
  intro f
  induction f with
  | zero =>
      intro h v hw hb hf
      cases v with
      | prim s => simp [deepcopyV]
      | ref a => exact absurd hf (Nat.not_lt_zero a)
  | succ f ih =>
      intro h v hw hb hf
      cases v with
      | prim s => simp [deepcopyV]
      | ref a =>
          have ha : a < h.length := hb
          have haf : a < f + 1 := hf
          cases hc : h[a]? with
          | none =>
              rw [List.getElem?_eq_getElem ha] at hc
              exact absurd hc (by simp)
          | some cell =>
              cases cell with
              | listC vs =>
                  have hkids : ∀ x ∈ vs, ValBelow h.length x ∧ ValFuel f x := by
                    intro x hx
                    cases x with
                    | prim s => exact ⟨trivial, trivial⟩
                    | ref a2 =>
                        have h2 := hw a _ hc a2 (refs_listC.mpr hx)
                        refine ⟨lt_trans h2 ha, ?_⟩
                        show a2 < f
                        omega
                  have hs := deepcopyL_total_of f ih vs h hw hkids
                  rw [Option.isSome_iff_exists] at hs
                  obtain ⟨⟨hm, vs2⟩, hl⟩ := hs
                  rw [deepcopyV, hc]
                  dsimp only
                  rw [hl]
                  rfl
              | dictC es =>
                  have hkids : ∀ e ∈ es,
                      ValBelow h.length e.2 ∧ ValFuel f e.2 := by
                    intro e he
                    cases hx : e.2 with
                    | prim s => exact ⟨trivial, trivial⟩
                    | ref a2 =>
                        have h2 := hw a _ hc a2 (refs_dictC.mpr ⟨e, he, hx⟩)
                        refine ⟨lt_trans h2 ha, ?_⟩
                        show a2 < f
                        omega
                  have hs := deepcopyE_total_of f ih es h hw hkids
                  rw [Option.isSome_iff_exists] at hs
                  obtain ⟨⟨hm, es2⟩, hl⟩ := hs
                  rw [deepcopyV, hc]
                  dsimp only
                  rw [hl]
                  rfl

theorem lastVal_mem {k : String} {v : PyVal} :
    ∀ {es : List (String × PyVal)},
      lastVal k es = some v → ∃ e ∈ es, e.2 = v := by
  intro es
  induction es with
  | nil => intro h; exact absurd h (by simp [lastVal])
  | cons e es ih =>
      intro h
      simp only [lastVal] at h
      cases hr : lastVal k es with
      | some w =>
          rw [hr] at h
          dsimp only at h
          have hwv : w = v := by simpa using h
          rw [hwv] at hr
          obtain ⟨x, hx, hxv⟩ := ih hr
          exact ⟨x, by simp [hx], hxv⟩
      | none =>
          rw [hr] at h
          dsimp only at h
          by_cases hek : (e.1 == k)
          · rw [if_pos hek] at h
            exact ⟨e, by simp, by simpa using h⟩
          · rw [if_neg hek] at h
            exact Option.noConfusion h

theorem copySettings_ok (f : Nat) :
    ∀ (rem : List (String × PyVal)) (hc : Heap) (acc : List (String × PyVal))
      (h2 : Heap) (E : List (String × PyVal)),
      copySettings f hc acc rem = some (h2, E) →
      (∃ t, h2 = hc ++ t) ∧
      (HeapWf hc → HeapWf h2) ∧
      (∀ lo, lo ≤ hc.length → (∀ e ∈ acc, ValAbove lo e.2) →
        ∀ e ∈ E, ValAbove lo e.2) ∧
      ((∀ e ∈ acc, ValBelow hc.length e.2) →
        ∀ e ∈ E, ValBelow h2.length e.2) ∧
      (∀ lo, lo ≤ hc.length → RegionClosed hc lo → RegionClosed h2 lo) ∧
      (HeapWf hc → (∀ e ∈ rem, ValBelow hc.length e.2) →
        ∀ k v, lastVal k rem = some v →
          ∃ v2, assocFind k E = some v2 ∧
            ∀ g, readoutV g h2 v2 = readoutV g hc v) ∧
      (∀ k, lastVal k rem = none → assocFind k E = assocFind k acc) := by
  intro rem
  induction rem with
  | nil =>
      intro hc acc h2 E hcs
      simp only [copySettings, Option.some.injEq, Prod.mk.injEq] at hcs
      obtain ⟨rfl, rfl⟩ := hcs
      refine ⟨⟨[], by simp⟩, fun hw => hw, ?_, ?_, fun lo _ hrc => hrc,
        ?_, fun k _ => rfl⟩
      · intro lo _ hacc
        exact hacc
      · intro hacc
        exact hacc
      · intro _ _ k v hlast
        exact absurd hlast (by simp [lastVal])
  | cons e0 rem ih =>
      intro hc acc h2 E hcs
      obtain ⟨k0, v0⟩ := e0
      rw [copySettings] at hcs
      cases hv1 : deepcopyV f hc v0 with
      | none => rw [hv1] at hcs; exact absurd hcs (by simp)
      | some r1 =>
          obtain ⟨hc1, v1⟩ := r1
          rw [hv1] at hcs
          dsimp only at hcs
          obtain ⟨⟨t1, ht1⟩, hwf1, habove1, hbelow1, hrc1, hro1⟩ :=
            deepcopyV_ok f hc v0 hc1 v1 hv1
          obtain ⟨⟨t2, ht2⟩, hwf2, habove2, hbelow2, hrc2, hlast2, hnone2⟩ :=
            ih hc1 (upsert acc k0 v1) h2 E hcs
          have hlen1 : hc.length ≤ hc1.length := by
            rw [ht1]; simp
          have hlen2 : hc1.length ≤ h2.length := by
            rw [ht2]; simp
          refine ⟨⟨t1 ++ t2, by rw [ht2, ht1]; simp⟩,
            fun hw => hwf2 (hwf1 hw), ?_, ?_, ?_, ?_, ?_⟩
          · intro lo hlo hacc
            refine habove2 lo (le_trans hlo hlen1) ?_
            intro e he
            rcases upsert_mem he with hev | hea
            · rw [hev]
              exact valAbove_mono hlo habove1
            · exact hacc e hea
          · intro hacc
            refine hbelow2 ?_
            intro e he
            rcases upsert_mem he with hev | hea
            · rw [hev]
              exact hbelow1
            · exact valBelow_mono hlen1 (hacc e hea)
          · intro lo hlo hrc
            exact hrc2 lo (le_trans hlo hlen1) (hrc1 lo hlo hrc)
          · intro hw hrem k v hlast
            simp only [lastVal] at hlast
            cases hr : lastVal k rem with
            | some w =>
                rw [hr] at hlast
                have hvw : w = v := by simpa using hlast
                subst hvw
                obtain ⟨v2, hfind, hro2⟩ := hlast2 (hwf1 hw)
                  (fun e he => valBelow_mono hlen1
                    (hrem e (by simp [he]))) k w hr
                refine ⟨v2, hfind, ?_⟩
                intro g
                rw [hro2 g]
                obtain ⟨ew, hew, hewv⟩ := lastVal_mem hr
                have hwb : ValBelow hc.length w := by
                  have hb := hrem ew (by simp [hew])
                  rw [hewv] at hb
                  exact hb
                exact readout_frame hc.length g hc hc1 hw
                  (fun j hj => by rw [ht1]; exact heap_get?_append hj) w hwb
            | none =>
                rw [hr] at hlast
                have hk0 : (k0 == k) = true := by
                  by_contra hk
                  rw [if_neg (by simpa using hk)] at hlast
                  exact Option.noConfusion hlast
                rw [if_pos (by simpa using hk0)] at hlast
                have hv0 : v0 = v := by simpa using hlast
                subst hv0
                have hkk0 : k = k0 := by
                  have := (beq_iff_eq.mp hk0)
                  exact this.symm
                refine ⟨v1, ?_, ?_⟩
                · rw [hnone2 k hr, hkk0]
                  exact assocFind_upsert_self acc k0 v1
                · intro g
                  have e1 : readoutV g h2 v1 = readoutV g hc1 v1 :=
                    readout_frame hc1.length g hc1 h2 (hwf1 hw)
                      (fun j hj => by rw [ht2]; exact heap_get?_append hj)
                      v1 hbelow1
                  rw [e1]
                  exact hro1 hw g
          · intro k hk
            simp only [lastVal] at hk
            cases hr : lastVal k rem with
            | some w => rw [hr] at hk; exact Option.noConfusion hk
            | none =>
                rw [hr] at hk
                have hk0 : (k0 == k) = false := by
                  by_contra hkc
                  rw [if_pos (by revert hkc; cases k0 == k <;> simp)] at hk
                  exact Option.noConfusion hk
                rw [hnone2 k hr]
                exact assocFind_upsert_other acc k0 k v1
                  (fun he => by simp [he] at hk0)

theorem copySettings_total (f : Nat) :
    ∀ (rem : List (String × PyVal)) (hc : Heap) (acc : List (String × PyVal)),
      HeapWf hc → (∀ e ∈ rem, ValBelow hc.length e.2 ∧ ValFuel f e.2) →
      (copySettings f hc acc rem).isSome := by
  intro rem
  induction rem with
  | nil => intro hc acc _ _; simp [copySettings]
  | cons e0 rem ih =>
      intro hc acc hw hb
      obtain ⟨k0, v0⟩ := e0
      have h1 := deepcopyV_total f hc v0 hw (hb (k0, v0) (by simp)).1
        (hb (k0, v0) (by simp)).2
      rw [Option.isSome_iff_exists] at h1
      obtain ⟨r1, hv1⟩ := h1
      obtain ⟨hc1, v1⟩ := r1
      obtain ⟨⟨t1, ht1⟩, hwf1, _, _, _, _⟩ := deepcopyV_ok f hc v0 hc1 v1 hv1
      have h2 := ih hc1 (upsert acc k0 v1) (hwf1 hw) (by
        intro e he
        refine ⟨valBelow_mono ?_ (hb e (by simp [he])).1,
          (hb e (by simp [he])).2⟩
        rw [ht1]; simp)
      rw [Option.isSome_iff_exists] at h2
      obtain ⟨r2, hrest⟩ := h2
      rw [copySettings, hv1]
      dsimp only
      rw [hrest]
      rfl

theorem reach_ge {h2 : Heap} {lo s : Nat} (hrc : RegionClosed h2 lo)
    (hs : lo ≤ s) : ∀ r, Reach h2 s r → lo ≤ r := by
  intro r hr
  induction hr with
  | refl => exact hs
  | step hb hcell hmem => exact hrc _ _ hcell (by assumption) _ hmem

/-- C10: constructing a `Config` deep-copies every default and user value
into the fresh settings store.  For every well-formed heap holding the
defaults dictionary at `d` and the caller's dictionary at `u`, construction
succeeds; the caller's dictionary reads out unchanged; everything reachable
from the settings root is freshly allocated, so overwriting any cell
reachable from a `Config` attribute leaves the caller's dictionary reading
out exactly as before; and every key of the user settings is bound in the
settings store to a value reading out as the user's (its last) value,
taking preference over the defaults. -/
theorem claim_C10 (h : Heap) (d u : Nat)
    (de ue : List (String × PyVal))
    (hwf : HeapWf h)
    (hd : h[d]? = some (.dictC de))
    (hu : h[u]? = some (.dictC ue)) :
    ∃ h2 s, configInit h.length h d u = some (h2, s) ∧
      (∀ g, readoutV g h2 (.ref u) = readoutV g h (.ref u)) ∧
      (∀ r, Reach h2 s r → h.length ≤ r) ∧
      (∀ r c, Reach h2 s r →
        ∀ g, readoutV g (heapSet h2 r c) (.ref u) = readoutV g h (.ref u)) ∧
      (∃ entries, h2[s]? = some (.dictC entries) ∧
        ∀ k v, lastVal k ue = some v →
          ∃ v2, assocFind k entries = some v2 ∧
            ∀ g, readoutV g h2 v2 = readoutV g h v) := by
  have hdlt : d < h.length := heap_get?_lt hd
  have hult : u < h.length := heap_get?_lt hu
  have hbounds : ∀ e ∈ de ++ ue, ValBelow h.length e.2 ∧
      ValFuel h.length e.2 := by
    intro e he
    rcases List.mem_append.mp he with hde | hue
    · cases hx : e.2 with
      | prim s => exact ⟨trivial, trivial⟩
      | ref a2 =>
          have := hwf d _ hd a2 (refs_dictC.mpr ⟨e, hde, hx⟩)
          exact ⟨lt_trans this hdlt, lt_trans this hdlt⟩
    · cases hx : e.2 with
      | prim s => exact ⟨trivial, trivial⟩
      | ref a2 =>
          have := hwf u _ hu a2 (refs_dictC.mpr ⟨e, hue, hx⟩)
          exact ⟨lt_trans this hult, lt_trans this hult⟩
  have htot := copySettings_total h.length (de ++ ue) h [] hwf hbounds
  rw [Option.isSome_iff_exists] at htot
  obtain ⟨r, hcs⟩ := htot
  obtain ⟨hm, E⟩ := r
  obtain ⟨⟨t, htm⟩, hwfm, habove, hbelow, hrcm, hlastm, _⟩ :=
    copySettings_ok h.length (de ++ ue) h [] hm E hcs
  have hEabove : ∀ e ∈ E, ValAbove h.length e.2 :=
    habove h.length (Nat.le_refl _) (by simp)
  have hEbelow : ∀ e ∈ E, ValBelow hm.length e.2 :=
    hbelow (by simp)
  have hlenm : h.length ≤ hm.length := by
    rw [htm]; simp
  refine ⟨hm ++ [.dictC E], hm.length, ?_, ?_, ?_, ?_, ?_⟩
  · simp only [configInit, hd, hu]
    rw [hcs]
  · intro g
    refine readout_frame h.length g h _ hwf ?_ _ hult
    intro j hj
    have : hm ++ [Cell.dictC E] = h ++ (t ++ [Cell.dictC E]) := by
      rw [htm]; simp
    rw [this]
    exact heap_get?_append hj
  · -- everything reachable from the settings root is fresh
    have hrc0 : RegionClosed h h.length := by
      intro i c hic hi
      exact absurd (heap_get?_lt hic) (by omega)
    have hrcm2 : RegionClosed hm h.length :=
      hrcm h.length (Nat.le_refl _) hrc0
    have hrcfin : RegionClosed (hm ++ [Cell.dictC E]) h.length := by
      refine regionClosed_snoc hrcm2 ?_
      intro a ha
      obtain ⟨e, he, hev⟩ := refs_dictC.mp ha
      have := hEabove e he
      rw [hev] at this
      exact this
    exact fun r hr => reach_ge hrcfin hlenm r hr
  · intro r c hr g
    have hrge : h.length ≤ r := by
      have hrc0 : RegionClosed h h.length := by
        intro i cc hic hi
        exact absurd (heap_get?_lt hic) (by omega)
      have hrcm2 : RegionClosed hm h.length :=
        hrcm h.length (Nat.le_refl _) hrc0
      have hrcfin : RegionClosed (hm ++ [Cell.dictC E]) h.length := by
        refine regionClosed_snoc hrcm2 ?_
        intro a ha
        obtain ⟨e, he, hev⟩ := refs_dictC.mp ha
        have := hEabove e he
        rw [hev] at this
        exact this
      exact reach_ge hrcfin hlenm r hr
    refine readout_frame h.length g h _ hwf ?_ _ hult
    intro j hj
    have hne : r ≠ j := by omega
    rw [heapSet, List.getElem?_set_ne hne]
    have : hm ++ [Cell.dictC E] = h ++ (t ++ [Cell.dictC E]) := by
      rw [htm]; simp
    rw [this]
    exact heap_get?_append hj
  · refine ⟨E, heap_get?_append_len, ?_⟩
    intro k v hlast
    have hlastfull : lastVal k (de ++ ue) = some v := by
      rw [lastVal_append, hlast]
    obtain ⟨v2, hfind, hro⟩ := hlastm hwf
      (fun e he => (hbounds e he).1) k v hlastfull
    refine ⟨v2, hfind, ?_⟩
    intro g
    have hv2b : ValBelow hm.length v2 := by
      obtain ⟨e, he, hev⟩ := assocFind_mem hfind
      have := hEbelow e he
      rw [hev] at this
      exact this
    have e1 : readoutV g (hm ++ [Cell.dictC E]) v2 = readoutV g hm v2 :=
      readout_frame hm.length g hm _ (hwfm hwf)
        (fun j hj => heap_get?_append hj) v2 hv2b
    rw [e1]
    exact hro g

/-- C10 witness: the theorem applied to a tiny concrete heap holding an
empty defaults dictionary and a one-entry user dictionary. -/
theorem claim_C10_witness :
    ∃ h2 s, configInit 2 [Cell.dictC [], Cell.dictC [("k", PyVal.prim "v")]]
        0 1 = some (h2, s) ∧
      (∀ g, readoutV g h2 (.ref 1) =
        readoutV g [Cell.dictC [], Cell.dictC [("k", PyVal.prim "v")]]
          (.ref 1)) ∧
      (∀ r, Reach h2 s r → 2 ≤ r) ∧
      (∀ r c, Reach h2 s r →
        ∀ g, readoutV g (heapSet h2 r c) (.ref 1) =
          readoutV g [Cell.dictC [], Cell.dictC [("k", PyVal.prim "v")]]
            (.ref 1)) ∧
      (∃ entries, h2[s]? = some (.dictC entries) ∧
        ∀ k v, lastVal k [("k", PyVal.prim "v")] = some v →
          ∃ v2, assocFind k entries = some v2 ∧
            ∀ g, readoutV g h2 v2 =
              readoutV g [Cell.dictC [], Cell.dictC [("k", PyVal.prim "v")]]
                v) :=
  claim_C10 [Cell.dictC [], Cell.dictC [("k", PyVal.prim "v")]] 0 1
    [] [("k", PyVal.prim "v")]
    (by
      intro i c hic a ha
      match i with
      | 0 =>
          simp only [List.getElem?_cons_zero, Option.some.injEq] at hic
          rw [← hic] at ha
          simp [Cell.refs] at ha
      | 1 =>
          simp only [List.getElem?_cons_succ, List.getElem?_cons_zero,
            Option.some.injEq] at hic
          rw [← hic] at ha
          simp [Cell.refs] at ha
      | n + 2 => simp at hic)
    rfl rfl

end PinyinToolkit
